import Mathlib

/-!
Shallow embedding of the timing/scoring core of the termania rhythm game:
`src/bps_lines.py` (piecewise beat/time map), `src/note.py` (note judgement
state machines) and `src/game_field.py` (lane dispatcher / scoreboard).

Python floats are modelled as `F`: an exact rational together with the IEEE
special values `inf`, `-inf` and `nan` that the source manipulates explicitly
(`float("inf")`, `math.isinf`).  All chart data is exact small rationals, so
no rounding is involved in any modelled computation.  Python raises
`ZeroDivisionError` on float division by zero (unlike IEEE), so division is
`Except`-valued wherever the source divides by a value that is not already
guarded against zero.  Sites where Python can raise (list indexing, undefined
names, `max` of an empty sequence) are modelled with `Except.error`.
-/

/-- Judgement enum from `judgement.py` (the values used by `note.py`). -/
inductive Judgement where
  | MARVELOUS | PERFECT | GREAT | GOOD | BOO | MISS | OK | NG
deriving DecidableEq, Repr

/-- Python float value: exact rational, or one of the IEEE special values. -/
inductive F where
  | fin : ℚ → F
  | inf : F
  | ninf : F
  | nan : F
deriving DecidableEq, Repr

namespace F

/-- Python `<` on floats (any comparison with nan is false). -/
def flt : F → F → Bool
  | fin a, fin b => a < b
  | fin _, inf => true
  | ninf, fin _ => true
  | ninf, inf => true
  | _, _ => false

/-- Python `<=` on floats (any comparison with nan is false). -/
def fle : F → F → Bool
  | fin a, fin b => a ≤ b
  | fin _, inf => true
  | ninf, fin _ => true
  | ninf, inf => true
  | ninf, ninf => true
  | inf, inf => true
  | _, _ => false

/-- Python `==` on floats (`nan == nan` is false). -/
def beq : F → F → Bool
  | fin a, fin b => a = b
  | inf, inf => true
  | ninf, ninf => true
  | _, _ => false

def fneg : F → F
  | fin a => fin (-a)
  | inf => ninf
  | ninf => inf
  | nan => nan

/-- IEEE addition. -/
def fadd : F → F → F
  | fin a, fin b => fin (a + b)
  | fin _, inf => inf
  | inf, fin _ => inf
  | inf, inf => inf
  | fin _, ninf => ninf
  | ninf, fin _ => ninf
  | ninf, ninf => ninf
  | inf, ninf => nan
  | ninf, inf => nan
  | nan, _ => nan
  | _, nan => nan

def fsub (a b : F) : F := fadd a (fneg b)

/-- IEEE multiplication. -/
def fmul : F → F → F
  | fin a, fin b => fin (a * b)
  | fin a, inf => if 0 < a then inf else if a < 0 then ninf else nan
  | inf, fin b => if 0 < b then inf else if b < 0 then ninf else nan
  | fin a, ninf => if 0 < a then ninf else if a < 0 then inf else nan
  | ninf, fin b => if 0 < b then ninf else if b < 0 then inf else nan
  | inf, inf => inf
  | ninf, ninf => inf
  | inf, ninf => ninf
  | ninf, inf => ninf
  | nan, _ => nan
  | _, nan => nan

/-- Python float division: raises `ZeroDivisionError` on an (exactly) zero
divisor, otherwise IEEE semantics. -/
def fdivE : F → F → Except String F
  | a, fin q =>
    if q = 0 then .error "ZeroDivisionError: float division by zero"
    else
      match a with
      | fin p => .ok (fin (p / q))
      | inf => .ok (if 0 < q then inf else ninf)
      | ninf => .ok (if 0 < q then ninf else inf)
      | nan => .ok nan
  | fin _, inf => .ok (fin 0)
  | fin _, ninf => .ok (fin 0)
  | inf, inf => .ok nan
  | inf, ninf => .ok nan
  | ninf, inf => .ok nan
  | ninf, ninf => .ok nan
  | nan, inf => .ok nan
  | nan, ninf => .ok nan
  | _, nan => .ok nan

/-- Python `math.isinf`. -/
def isinf : F → Bool
  | inf => true
  | ninf => true
  | _ => false

def isFin : F → Bool
  | fin _ => true
  | _ => false

end F

/-- One stored BPS line of `BPSLines.__bps_lines`:
`(start_time, start_beat, beats_per_second)`. -/
structure Seg where
  time : F
  beat : F
  bps : F
deriving DecidableEq, Repr

/-! ## `BPSLines.__regularise_lines` (src/bps_lines.py lines 18-62)

The Python loop walks an index `i`.  When `lines[i+1][0] < lines[i][0]` it
remembers `resume_time = lines[i][0]`, advances `i` while
`lines[i+1][0] < resume_time` (so at least once), takes `curr = lines[i]`,
emits a bridging infinite-bps line at `resume_time` carrying the old beat,
then the resumed line, and continues after `curr`.  Otherwise it copies
`lines[i]`.  We phrase the same walk on the suffix of the list: `skipRun`
is the inner while loop, returning `curr` together with the untouched tail. -/

def skipRun (rt : F) (c : Seg) : List Seg → Seg × List Seg
  | [] => (c, [])
  | x :: xs => if F.flt x.time rt then skipRun rt x xs else (c, x :: xs)

theorem skipRun_len (rt : F) : ∀ (l : List Seg) (c : Seg),
    (skipRun rt c l).2.length ≤ l.length := by
  intro l
  induction l with
  | nil => intro c; simp [skipRun]
  | cons x xs ih =>
    intro c
    simp only [skipRun]
    split
    · exact le_trans (ih x) (by simp)
    · simp

def regularise : List Seg → List Seg
  | [] => []
  | [a] => [a]
  | a :: b :: rest =>
    if F.flt b.time a.time then
      -- time warp: skip forward, bridge with an "infinite bpm" line
      let p := skipRun a.time a (b :: rest)
      let curr := p.1
      ⟨a.time, a.beat, F.inf⟩ ::
        ⟨a.time, F.fadd (F.fmul curr.bps (F.fsub a.time curr.time)) curr.beat, curr.bps⟩ ::
        regularise p.2
    else
      a :: regularise (b :: rest)
termination_by l => l.length
decreasing_by
  · have h := skipRun_len a.time (b :: rest) a
    simp only [List.length_cons] at *
    omega
  · simp

/-! ## `BPSLines.init_beat_bpms` (src/bps_lines.py lines 64-117) -/

/-- Stitching loop of `init_beat_bpms`: from the previous raw line
`(prev_time, prev_beat, prev_bps)` derive each new line
`((beat - prev_beat) / prev_bps + prev_time, beat, bpm / 60)`.
All quantities here are finite, and `prev_bps ≠ 0` is guaranteed by the
zero-BPM validation, so the arithmetic is plain rational arithmetic. -/
def rawAux (prev : ℚ × ℚ × ℚ) : List (ℚ × ℚ) → List (ℚ × ℚ × ℚ)
  | [] => []
  | (b, bpm) :: rest =>
    let cur : ℚ × ℚ × ℚ := ((b - prev.2.1) / prev.2.2 + prev.1, b, bpm / 60)
    cur :: rawAux cur rest

/-- The `any(bpm_changes[i][0] >= bpm_changes[i+1][0] ...)` check. -/
def ascViolated : List (ℚ × ℚ) → Bool
  | a :: b :: rest => a.1 ≥ b.1 || ascViolated (b :: rest)
  | _ => false

/-- `init_beat_bpms`.  Mirrors the source's validation chain, including the
dead `len(bpm_changes) < 0` check (never true) and the fact that an empty
input therefore reaches `bpm_changes[0][0]` and raises `IndexError` rather
than the intended `ValueError`.  On success returns the regularised lines
that the source assigns to `self.__bps_lines` (assigned only after every
check and computation, so a raising call leaves the stored state unchanged). -/
def init_beat_bpms (bpm_changes : List (ℚ × ℚ)) : Except String (List Seg) :=
  if bpm_changes.length < 0 then
    .error "ValueError: Must have at least one BPM."
  else if ascViolated bpm_changes then
    .error "ValueError: All beats must be in strictly ascending order."
  else if bpm_changes.any (fun p => p.2 = 0) then
    .error "ValueError: SM formats cannot support 0 BPMs without duration. Use stops instead."
  else
    match bpm_changes with
    | [] => .error "IndexError: list index out of range"
    | first :: rest =>
      if first.1 ≠ 0 then .error "ValueError: First BPM did not start at b0/t0."
      else
        let raw : List (ℚ × ℚ × ℚ) := (0, 0, first.2 / 60) :: rawAux (0, 0, first.2 / 60) rest
        let lines := regularise (raw.map fun t => ⟨F.fin t.1, F.fin t.2.1, F.fin t.2.2⟩)
        if lines.length = 0 then .error "ValueError: No valid BPM line."
        else .ok lines

/-! ## `BPSLines.add_beat_stops` (src/bps_lines.py lines 129-221) -/

/-- Stable descending sort by beat, modelling
`sorted(stops, key=lambda x: x[0], reverse=True)` (insertion sort; a new
element goes in front of the first element whose key is `<=` its own, which
keeps earlier-input elements first among equal keys, like Python's stable
sort with `reverse=True`). -/
def insertDesc (x : ℚ × ℚ) : List (ℚ × ℚ) → List (ℚ × ℚ)
  | [] => [x]
  | y :: ys => if y.1 ≤ x.1 then x :: y :: ys else y :: insertDesc x ys

def sortDesc : List (ℚ × ℚ) → List (ℚ × ℚ)
  | [] => []
  | x :: xs => insertDesc x (sortDesc xs)

/-- The "merge duplicates" loop of `add_beat_stops` (lines 139-144).  The
source compares `stop[0] != last_beat` but assigns `last_beat = stop` (the
whole tuple), so after the first append the comparison is float-vs-tuple and
always true: nothing is ever merged.  The only effect is that leading stops
whose beat equals the initial `last_beat = -1` are dropped. -/
def buildStack : List (ℚ × ℚ) → List (ℚ × ℚ)
  | [] => []
  | s :: rest => if s.1 = -1 then buildStack rest else s :: rest

/-- Inner while loop of `add_beat_stops` (lines 170-197): split out every
stop strictly before `line_end_beat`.  The Python stack pops from the end of
a descending list; our `stack` argument is that list reversed, popping from
the head.  Returns the emitted lines, the remaining stack and the updated
running time offset. -/
def splitStops (line : Seg) (line_end_beat : F) (offset : ℚ) :
    List (ℚ × ℚ) → Except String (List Seg × List (ℚ × ℚ) × ℚ)
  | [] => .ok ([], [], offset)
  | (new_beat, stop_duration) :: rest =>
    if F.flt (F.fin new_beat) line_end_beat then
      let ntE : Except String F :=
        if F.isinf line.bps then .ok line.time
        else
          match F.fdivE (F.fsub (F.fin new_beat) line.beat) line.bps with
          | .error e => .error e
          | .ok q => .ok (F.fadd q line.time)
      match ntE with
      | .error e => .error e
      | .ok new_time =>
        let offset2 := offset + stop_duration
        match splitStops line line_end_beat offset2 rest with
        | .error e => .error e
        | .ok r =>
          .ok (⟨F.fadd new_time (F.fin offset), F.fin new_beat, F.fin 0⟩ ::
               ⟨F.fadd new_time (F.fin offset2), F.fin new_beat, line.bps⟩ :: r.1,
               r.2.1, r.2.2)
    else .ok ([], (new_beat, stop_duration) :: rest, offset)

/-- Main `for line_i in range(len(self.__bps_lines))` loop of
`add_beat_stops` (lines 147-212), walking the stored lines.  On the last
line the source leaves `line_end_time` unbound (stale); it is never read
there because `line_end_beat` is `inf` and never `==` a finite stop beat, so
we pass `F.nan` as a placeholder for it. -/
def addLines (stack : List (ℚ × ℚ)) (offset : ℚ) : List Seg → Except String (List Seg)
  | [] => .ok []
  | line :: rest =>
    let first : Seg := ⟨F.fadd line.time (F.fin offset), line.beat, line.bps⟩
    let ends : F × F :=
      match rest.head? with
      | some nxt => (nxt.time, nxt.beat)
      | none => (F.nan, F.inf)
    match splitStops line ends.2 offset stack with
    | .error e => .error e
    | .ok r =>
      match r.2.1 with
      | (b, d) :: stRest =>
        if F.beq ends.2 (F.fin b) then
          -- stop exactly between lines: only the bridge is added
          match addLines stRest (r.2.2 + d) rest with
          | .error e => .error e
          | .ok segs => .ok (first :: r.1 ++ ⟨F.fadd ends.1 (F.fin r.2.2), ends.2, F.fin 0⟩ :: segs)
        else
          match addLines ((b, d) :: stRest) r.2.2 rest with
          | .error e => .error e
          | .ok segs => .ok (first :: r.1 ++ segs)
      | [] =>
        match addLines [] r.2.2 rest with
        | .error e => .error e
        | .ok segs => .ok (first :: r.1 ++ segs)

/-- Validation at the top of `add_beat_stops` (line 135): evaluated only
when the last stored bps is non-positive; `max` of the stop beats raises on
an empty stops list, and the whole call fails when the largest stop beat
exceeds the largest stored beat. -/
def stopsCheck (L : List Seg) (last : Seg) (stops : List (ℚ × ℚ)) : Except String Unit :=
  if F.fle last.bps (F.fin 0) then
    match stops with
    | [] => .error "ValueError: max() arg is an empty sequence"
    | s :: srest =>
      let max_stop : ℚ := srest.foldl (fun acc x => if acc < x.1 then x.1 else acc) s.1
      let max_beat : F :=
        match L with
        | [] => F.nan  -- unreachable: L has a last element
        | l0 :: lrest => lrest.foldl (fun acc x => if F.flt acc x.beat then x.beat else acc) l0.beat
      if F.flt max_beat (F.fin max_stop) then
        .error "ValueError: Stop beats must be between 0 to max BPSLines beat."
      else .ok ()
  else .ok ()

/-- `add_beat_stops` acting on stored lines `L`.  Python evaluates
`self.__bps_lines[-1]` first (IndexError on an uninitialised map), then the
validation, then builds, regularises and only then publishes. -/
def add_beat_stops (L : List Seg) (stops : List (ℚ × ℚ)) : Except String (List Seg) :=
  match L.getLast? with
  | none => .error "IndexError: list index out of range"
  | some last =>
    match stopsCheck L last stops with
    | .error e => .error e
    | .ok _ =>
      match addLines ((buildStack (sortDesc stops)).reverse) 0 L with
      | .error e => .error e
      | .ok new_lines =>
        let regular := regularise new_lines
        if regular.length = 0 then .error "ValueError: No valid BPM line."
        else .ok regular

/-! ## Query functions (src/bps_lines.py lines 229-301) -/

/-- Cursor-advance loop shared (in shape) by both queries: advance while the
next line's `key` field is strictly below the target (undershoot on exact).
`advLoop` consumes the part of the list after the cursor; the cursor `c`
counts up exactly as in the Python `while` loop. -/
def advLoop (key : Seg → F) (target : F) : Nat → List Seg → Nat
  | c, [] => c
  | c, x :: xs => if F.flt (key x) target then advLoop key target (c + 1) xs else c

def advanceFrom (lines : List Seg) (key : Seg → F) (target : F) (c : Nat) : Nat :=
  advLoop key target c (lines.drop (c + 1))

/-- `BPSLines.beat_at_time`.  Indexing `self.__bps_lines[line_cursor]` raises
IndexError when the cursor is out of range (possible only with an
out-of-range hint). -/
def beat_at_time (lines : List Seg) (song_time : F) (last_line_index : Nat)
    (allow_stop : Bool) (allow_warp : Bool) : Except String (F × Nat) :=
  let c := advanceFrom lines (fun s => s.time) song_time last_line_index
  match lines.get? c with
  | none => .error "IndexError: list index out of range"
  | some seg =>
    if F.beq seg.bps (F.fin 0) then
      .ok (if allow_stop then seg.beat else F.inf, c)
    else if F.isinf seg.bps then
      .ok (if allow_warp then seg.beat else F.inf, c)
    else
      .ok (F.fadd (F.fmul seg.bps (F.fsub song_time seg.time)) seg.beat, c)

/-- `BPSLines.time_at_beat`.  Line 289 of the source guards with
`line_cursor >= len(self.__bps_lines) and line_bps <= 0 and beat < line_beat`;
the first conjunct is never true (the cursor stays in range, and an
out-of-range cursor would already have raised IndexError on the unpacking
line just above), and `line_bps` is an undefined name, so if the guard were
ever reached past its first conjunct Python would raise NameError.  We model
that branch as the error it would raise. -/
def time_at_beat (lines : List Seg) (beat : F) (last_line_index : Nat)
    (allow_stop : Bool) (allow_warp : Bool) : Except String (F × Nat) :=
  let c := advanceFrom lines (fun s => s.beat) beat last_line_index
  match lines.get? c with
  | none => .error "IndexError: list index out of range"
  | some seg =>
    if c ≥ lines.length then
      .error "NameError: name line_bps is not defined"
    else if F.beq seg.bps (F.fin 0) then
      .ok (if allow_stop then seg.time else F.inf, c)
    else if F.isinf seg.bps then
      .ok (if allow_warp then seg.time else F.inf, c)
    else do
      let q ← F.fdivE (F.fsub beat seg.beat) seg.bps
      .ok (F.fadd q seg.time, c)

/-! ## Note state machines (src/note.py)

Each Python note object is modelled as a record of its immutable attributes,
its variant (`NoteKind`, carrying the hold/roll tail attributes), and its
mutable state (`judgement`, `accuracy`, `last_held`).  Note timings come
from the chart as plain numbers, so they are plain rationals here.
`last_held` exists only on holds/rolls in the source; taps/mines simply
never read or write it. -/

inductive NoteKind where
  | tap
  | hold (tail_timing tail_beat : ℚ) (tail_measure_pos tail_measure_fraction : ℤ)
  | roll (tail_timing tail_beat : ℚ) (tail_measure_pos tail_measure_fraction : ℤ)
  | mine
deriving DecidableEq, Repr

structure Note where
  key : ℤ
  timing : ℚ
  beat : ℚ
  measure_pos : ℤ
  measure_fraction : ℤ
  kind : NoteKind
  judgement : Option Judgement := none
  accuracy : Option ℚ := none
  last_held : ℚ := -1
deriving DecidableEq, Repr

namespace Note

/-- `press(song_time)`: returns the updated note and the Python return value.
Tap (lines 106-129) hard-codes the SM Judge 4 windows and returns
`self.__judgement` (so in the too-early branch it returns the unchanged,
possibly pre-existing judgement).  Hold (209-219) and Roll (336-346) only
record first-press accuracy and the last-held stamp and fall off the end of
the function, returning None.  Mine (444-449) judges NG within ±0.05s and
otherwise falls through, returning None. -/
def press (n : Note) (song_time : ℚ) : Note × Option Judgement :=
  match n.kind with
  | .tap =>
    let d := song_time - n.timing
    if |d| ≤ 0.0225 then
      ({ n with accuracy := some d, judgement := some .MARVELOUS }, some .MARVELOUS)
    else if |d| ≤ 0.045 then
      ({ n with accuracy := some d, judgement := some .PERFECT }, some .PERFECT)
    else if |d| ≤ 0.09 then
      ({ n with accuracy := some d, judgement := some .GREAT }, some .GREAT)
    else if |d| ≤ 0.135 then
      ({ n with accuracy := some d, judgement := some .GOOD }, some .GOOD)
    else if |d| ≤ 0.18 then
      ({ n with accuracy := some d, judgement := some .BOO }, some .BOO)
    else if n.timing < song_time then
      ({ n with accuracy := none, judgement := some .MISS }, some .MISS)
    else
      ({ n with accuracy := none }, n.judgement)
  | .hold _ _ _ _ =>
    let d := song_time - n.timing
    if d ≥ -0.18 then
      ({ n with accuracy := (match n.accuracy with | none => some d | some a => some a),
                last_held := song_time }, none)
    else (n, none)
  | .roll _ _ _ _ =>
    let d := song_time - n.timing
    if d ≥ -0.18 then
      ({ n with accuracy := (match n.accuracy with | none => some d | some a => some a),
                last_held := song_time }, none)
    else (n, none)
  | .mine =>
    if |song_time - n.timing| ≤ 0.05 then
      ({ n with judgement := some .NG }, some .NG)
    else (n, none)

/-- `release(song_time)`: a no-op returning None for every variant. -/
def release (n : Note) (_song_time : ℚ) : Note × Option Judgement := (n, none)

/-- `poll(song_time, held)`.  Tap (134-141) judges Miss past +0.18s.  Hold
(225-247) and Roll (352-369) update their state and then return
`self.__judgement`, whatever it now is.  Mine (454-464) judges OK past
+0.05s, or NG when held within the window. -/
def poll (n : Note) (song_time : ℚ) (held : Bool) : Note × Option Judgement :=
  match n.kind with
  | .tap =>
    if song_time - n.timing > 0.18 then
      ({ n with judgement := some .MISS }, some .MISS)
    else (n, none)
  | .hold tail_timing _ _ _ =>
    let n' :=
      if n.last_held ≥ 0 then
        if song_time ≥ tail_timing then { n with judgement := some .OK }
        else if song_time - 0.25 > n.last_held then { n with judgement := some .NG }
        else if held ∧ song_time - n.timing ≥ -0.18 then { n with last_held := song_time }
        else n
      else if song_time - n.timing > 0.18 then { n with judgement := some .MISS }
      else n
    (n', n'.judgement)
  | .roll tail_timing _ _ _ =>
    let n' :=
      if n.last_held ≥ 0 then
        if song_time ≥ tail_timing then { n with judgement := some .OK }
        else if song_time - 0.5 > n.last_held then { n with judgement := some .NG }
        else n
      else if song_time - n.timing > 0.18 then { n with judgement := some .MISS }
      else n
    (n', n'.judgement)
  | .mine =>
    if song_time - n.timing > 0.05 then
      ({ n with judgement := some .OK }, some .OK)
    else if held ∧ |song_time - n.timing| ≤ 0.05 then
      ({ n with judgement := some .NG }, some .NG)
    else (n, none)

end Note

/-! ## GameField (src/game_field.py)

The judgement-count dict is pre-populated with every judgement kind, so it
is a total function here.  Cursors and columns are parallel lists (built
together in `__init__` and never resized); indexing that Python performs on
them is modelled with `getD`/`headD` and the claims supply aligned lengths.
`held[col_i]` would raise in Python if `held` were shorter than the number
of lanes; it is modelled with `getD false` (the claims pass full-length
lists). -/

structure GameField where
  note_columns : List (List Note)
  note_cursors : List Nat
  judgement_counts : Judgement → Nat
  last_judgement : Option Judgement
  nps_avg : ℚ
  accuracy_avg : ℚ
  last_song_time : ℚ

/-- `self.__judgement_counts[judgement] += 1`. -/
def bumpCount (c : Judgement → Nat) (j : Judgement) : Judgement → Nat :=
  fun j' => if j' = j then c j' + 1 else c j'

namespace GameField

/-- `press_key` (lines 51-62): press the head note; if a judgement comes
back, record it and advance the lane cursor.  The pressed note's own state
update persists either way. -/
def press_key (s : GameField) (key_index : Nat) (song_time : ℚ) : GameField :=
  let column := s.note_columns.getD key_index []
  let note_index := s.note_cursors.getD key_index 0
  match column.get? note_index with
  | some note =>
    let pr := note.press song_time
    let columns' := s.note_columns.set key_index (column.set note_index pr.1)
    match pr.2 with
    | some j =>
      { s with note_columns := columns',
               judgement_counts := bumpCount s.judgement_counts j,
               last_judgement := some j,
               note_cursors := s.note_cursors.set key_index (note_index + 1) }
    | none => { s with note_columns := columns' }
  | none => s

/-- `release_key` (lines 64-75): same shape with `release`. -/
def release_key (s : GameField) (key_index : Nat) (song_time : ℚ) : GameField :=
  let column := s.note_columns.getD key_index []
  let note_index := s.note_cursors.getD key_index 0
  match column.get? note_index with
  | some note =>
    let pr := note.release song_time
    let columns' := s.note_columns.set key_index (column.set note_index pr.1)
    match pr.2 with
    | some j =>
      { s with note_columns := columns',
               judgement_counts := bumpCount s.judgement_counts j,
               last_judgement := some j,
               note_cursors := s.note_cursors.set key_index (note_index + 1) }
    | none => { s with note_columns := columns' }
  | none => s

/-- Inner `while checking_column ...` loop of `poll` (lines 86-98), acting on
the notes from the cursor onwards: keep polling the head note, recording and
advancing while it returns judgements.  Returns the processed notes, the
number of notes resolved (cursor increment), updated counts/last judgement,
and whether the loop body ran at all (Python sets `chart_complete = False`
on every iteration of the body, before inspecting the judgement). -/
def pollRun (song_time : ℚ) (held : Bool) :
    List Note → (Judgement → Nat) → Option Judgement →
    List Note × Nat × (Judgement → Nat) × Option Judgement × Bool
  | [], counts, lastj => ([], 0, counts, lastj, false)
  | note :: rest, counts, lastj =>
    let pr := note.poll song_time held
    match pr.2 with
    | none => (pr.1 :: rest, 0, counts, lastj, true)
    | some j =>
      let r := pollRun song_time held rest (bumpCount counts j) (some j)
      (pr.1 :: r.1, r.2.1 + 1, r.2.2.1, r.2.2.2.1, true)

/-- One lane of the first `poll` pass: run the while loop on
`column[cursor:]`, splicing the processed notes back and bumping the cursor
by the number of resolved notes. -/
def pollColumn (song_time : ℚ) (held : Bool) (col : List Note) (cur : Nat)
    (counts : Judgement → Nat) (lastj : Option Judgement) (complete : Bool) :
    List Note × Nat × (Judgement → Nat) × Option Judgement × Bool :=
  let r := pollRun song_time held (col.drop cur) counts lastj
  (col.take cur ++ r.1, cur + r.2.1, r.2.2.1, r.2.2.2.1,
   if r.2.2.2.2 then false else complete)

/-- First pass of `poll` (lines 84-98) over all lanes. -/
def pollLanes (song_time : ℚ) (held : List Bool) (idx : Nat) :
    List (List Note) → List Nat → (Judgement → Nat) → Option Judgement → Bool →
    List (List Note) × List Nat × (Judgement → Nat) × Option Judgement × Bool
  | [], _, counts, lastj, complete => ([], [], counts, lastj, complete)
  | col :: restCols, cursors, counts, lastj, complete =>
    let r := pollColumn song_time (held.getD idx false) col (cursors.headD 0) counts lastj complete
    let rr := pollLanes song_time held (idx + 1) restCols cursors.tail r.2.2.1 r.2.2.2.1 r.2.2.2.2
    (r.1 :: rr.1, r.2.1 :: rr.2.1, rr.2.2)

/-- Downward accuracy walk of the metrics pass (lines 107-112), once the
start index is known to be in range: visits `column[note_i]`,
`column[note_i - 1]`, ... while `(song_time - 5) < column[note_i].timing`,
stopping at index `-1`.  The argument is that visited prefix, reversed. -/
def metricsRun (song_time : ℚ) : List Note → ℚ → Nat → ℚ × Nat
  | [], accSum, cnt => (accSum, cnt)
  | note :: rest, accSum, cnt =>
    if song_time - 5 < note.timing then
      match note.accuracy with
      | some a => metricsRun song_time rest (accSum + a) (cnt + 1)
      | none => metricsRun song_time rest accSum cnt
    else (accSum, cnt)

/-- One lane of the metrics pass.  Python starts at
`note_i = min(cursor, len(column))`; the first evaluation of
`column[note_i].timing` raises IndexError exactly when that start index
equals `len(column)` — that is, whenever `cursor ≥ len(column)` (including
an empty column).  Otherwise the walk moves strictly downward from `cursor`
and stays in range. -/
def metricsLane (song_time : ℚ) (col : List Note) (cur : Nat) (accSum : ℚ) (cnt : Nat) :
    Except String (ℚ × Nat) :=
  if col.length ≤ cur then .error "IndexError: list index out of range"
  else .ok (metricsRun song_time ((col.take (cur + 1)).reverse) accSum cnt)

/-- Metrics pass over all lanes (lines 101-112), accumulating the shared
`accuracy_sum` / `note_count` locals. -/
def metricsLanes (song_time : ℚ) : List (List Note) → List Nat → ℚ → Nat →
    Except String (ℚ × Nat)
  | [], _, accSum, cnt => .ok (accSum, cnt)
  | col :: restCols, cursors, accSum, cnt =>
    match metricsLane song_time col (cursors.headD 0) accSum cnt with
    | .error e => .error e
    | .ok r => metricsLanes song_time restCols cursors.tail r.1 r.2

/-- `poll` (lines 77-122).  Returns the post-call state together with either
the `chart_complete` flag or the exception `poll` raises; the state returned
on an error is the state at the moment of the raise (the metrics pass only
writes the two averages, and it writes them only after every walk is done,
so an erroring call leaves everything but the first pass untouched). -/
def poll (s : GameField) (song_time : ℚ) (held : List Bool) :
    GameField × Except String Bool :=
  let r := pollLanes song_time held 0 s.note_columns s.note_cursors
             s.judgement_counts s.last_judgement true
  let s1 := { s with note_columns := r.1, note_cursors := r.2.1,
                     judgement_counts := r.2.2.1, last_judgement := r.2.2.2.1 }
  match metricsLanes song_time r.1 r.2.1 0 0 with
  | .error e => (s1, .error e)
  | .ok m =>
    if 0 < m.2 then
      (({ s1 with nps_avg := (m.2 : ℚ) / 5, accuracy_avg := m.1 / ((m.2 : ℚ) * 5) }),
        .ok r.2.2.2.2)
    else
      (({ s1 with nps_avg := 0, accuracy_avg := 0 }), .ok r.2.2.2.2)

end GameField

/-- One externally triggered game event (user input or game tick). -/
inductive Event where
  | press (key_index : Nat) (song_time : ℚ)
  | release (key_index : Nat) (song_time : ℚ)
  | poll (song_time : ℚ) (held : List Bool)

/-- State reached after an event (for `poll`, the state component — in
Python the mutations performed before a metrics-pass exception persist). -/
def stepEvent (s : GameField) : Event → GameField
  | .press k t => s.press_key k t
  | .release k t => s.release_key k t
  | .poll t held => (s.poll t held).1

def runEvents (s : GameField) : List Event → GameField
  | [] => s
  | e :: evs => runEvents (stepEvent s e) evs

/-! ## Auxiliary facts about `F` -/

def F.isNan : F → Bool
  | .nan => true
  | _ => false

def F.isNinf : F → Bool
  | .ninf => true
  | _ => false

def F.isPosInf : F → Bool
  | .inf => true
  | _ => false

theorem F.isFin_iff {x : F} : x.isFin = true ↔ ∃ q, x = F.fin q := by
  cases x <;> simp [F.isFin]

theorem F.fle_of_not_flt {a b : F} (ha : a.isNan = false) (hb : b.isNan = false)
    (h : F.flt a b = false) : F.fle b a = true := by
  cases a <;> cases b <;> simp_all [F.flt, F.fle, F.isNan] <;> linarith

theorem F.fle_refl {a : F} (ha : a.isNan = false) : F.fle a a = true := by
  cases a <;> simp_all [F.fle, F.isNan]

/-! ## Validity of stored lines

Every line that `init_beat_bpms` or `add_beat_stops` can store has a plain
finite start time, a start beat that is finite or `+inf`, a bps that is
finite or `+inf`, and an infinite start beat only on an infinite-bps bridge
line.  This invariant is what makes the stop-splitting arithmetic of
`add_beat_stops` stay clear of nan times. -/

def validSeg (s : Seg) : Bool :=
  s.time.isFin && (!s.beat.isNan && !s.beat.isNinf) && (!s.bps.isNan && !s.bps.isNinf) &&
    (!s.beat.isPosInf || s.bps.isPosInf)

def ValidLines (L : List Seg) : Prop := ∀ s ∈ L, validSeg s = true

/-- The monotonicity property of claim C6: stored `start_time`s never
decrease along the stored sequence. -/
def TimesSorted (L : List Seg) : Prop :=
  List.Chain' (fun a b => F.fle a.time b.time = true) L

/-! ## Lemmas about `skipRun` -/

theorem skipRun_fst_mem (rt : F) :
    ∀ (l : List Seg) (c : Seg), (skipRun rt c l).1 = c ∨ (skipRun rt c l).1 ∈ l := by
  intro l
  induction l with
  | nil => intro c; simp [skipRun]
  | cons x xs ih =>
    intro c
    simp only [skipRun]
    split
    · rcases ih x with h | h
      · right; simp [h]
      · right; simp [h]
    · left; rfl

theorem skipRun_fst_flt (rt : F) :
    ∀ (l : List Seg) (c : Seg), F.flt c.time rt = true →
      F.flt (skipRun rt c l).1.time rt = true := by
  intro l
  induction l with
  | nil => intro c hc; simpa [skipRun] using hc
  | cons x xs ih =>
    intro c hc
    simp only [skipRun]
    split
    · exact ih x (by assumption)
    · exact hc

theorem skipRun_snd_mem (rt : F) :
    ∀ (l : List Seg) (c : Seg) (s : Seg), s ∈ (skipRun rt c l).2 → s ∈ l := by
  intro l
  induction l with
  | nil => intro c s hs; simpa [skipRun] using hs
  | cons x xs ih =>
    intro c s hs
    simp only [skipRun] at hs
    by_cases h : F.flt x.time rt = true
    · simp only [h, if_true] at hs
      exact List.mem_cons_of_mem x (ih x s hs)
    · simp only [eq_false_of_ne_true h, if_false] at hs
      exact hs

theorem skipRun_snd_head (rt : F) :
    ∀ (l : List Seg) (c : Seg) (y : Seg) (ys : List Seg),
      (skipRun rt c l).2 = y :: ys → F.flt y.time rt = false := by
  intro l
  induction l with
  | nil => intro c y ys h; simp [skipRun] at h
  | cons x xs ih =>
    intro c y ys h
    simp only [skipRun] at h
    by_cases hx : F.flt x.time rt = true
    · simp only [hx, if_true] at h
      exact ih x y ys h
    · simp only [eq_false_of_ne_true hx] at h
      norm_num at h
      obtain ⟨rfl, -⟩ := h
      exact eq_false_of_ne_true hx

/-! ## Lemmas about `regularise` -/

theorem regularise_head : ∀ (a : Seg) (l : List Seg),
    ∃ z, (regularise (a :: l)).head? = some z ∧ z.time = a.time := by
  intro a l
  cases l with
  | nil => exact ⟨a, by simp [regularise], rfl⟩
  | cons b rest =>
    by_cases h : F.flt b.time a.time = true
    · exact ⟨⟨a.time, a.beat, F.inf⟩, by simp only [regularise, h, if_true, List.head?_cons], rfl⟩
    · refine ⟨a, ?_, rfl⟩
      simp only [regularise, eq_false_of_ne_true h]
      norm_num

/-- The resumed line spliced in by a warp repair is valid whenever the line
it restarts from is valid and strictly precedes the resume time. -/
theorem resumed_valid (a curr : Seg) (hva : validSeg a = true) (hvc : validSeg curr = true)
    (hlt : F.flt curr.time a.time = true) :
    validSeg ⟨a.time, F.fadd (F.fmul curr.bps (F.fsub a.time curr.time)) curr.beat, curr.bps⟩
      = true := by
  simp only [validSeg, Bool.and_eq_true, Bool.or_eq_true, Bool.not_eq_true] at hva hvc ⊢
  obtain ⟨⟨⟨hta, hba⟩, hpa⟩, hia⟩ := hva
  obtain ⟨⟨⟨htc, hbc⟩, hpc⟩, hic⟩ := hvc
  obtain ⟨ta, hta⟩ := F.isFin_iff.mp hta
  obtain ⟨tc, htc⟩ := F.isFin_iff.mp htc
  rw [hta, htc] at hlt ⊢
  have hlt' : tc < ta := by simpa [F.flt] using hlt
  have hsub : F.fsub (F.fin ta) (F.fin tc) = F.fin (ta - tc) := by
    simp [F.fsub, F.fadd, F.fneg]; ring
  rw [hsub]
  cases hbps : curr.bps with
  | fin m =>
    cases hbeat : curr.beat with
    | fin bq => simp [F.fmul, F.fadd, F.isFin, F.isNan, F.isNinf, F.isPosInf]
    | inf =>
      rw [hbeat] at hic
      simp only [F.isPosInf] at hic
      rw [hbps] at hic
      simp [F.isPosInf] at hic
    | ninf => rw [hbeat] at hbc; simp [F.isNinf] at hbc
    | nan => rw [hbeat] at hbc; simp [F.isNan] at hbc
  | inf =>
    have hd : (0 : ℚ) < ta - tc := by linarith
    cases hbeat : curr.beat with
    | fin bq => simp [F.fmul, hd, F.fadd, F.isFin, F.isNan, F.isNinf, F.isPosInf]
    | inf => simp [F.fmul, hd, F.fadd, F.isFin, F.isNan, F.isNinf, F.isPosInf]
    | ninf => rw [hbeat] at hbc; simp [F.isNinf] at hbc
    | nan => rw [hbeat] at hbc; simp [F.isNan] at hbc
  | ninf => rw [hbps] at hpc; simp [F.isNinf] at hpc
  | nan => rw [hbps] at hpc; simp [F.isNan] at hpc

theorem regularise_valid : ∀ l : List Seg, ValidLines l → ValidLines (regularise l) := by
  intro l
  induction l using regularise.induct with
  | case1 => intro h; simpa [regularise] using h
  | case2 a => intro h; simpa [regularise] using h
  | case3 a b rest h p ih =>
    intro hv
    have hva : validSeg a = true := hv a (by simp)
    have hunfold : skipRun a.time a (b :: rest) = skipRun a.time b rest := by
      simp [skipRun, h]
    have hvc : validSeg (skipRun a.time a (b :: rest)).1 = true := by
      rcases skipRun_fst_mem a.time (b :: rest) a with hm | hm
      · rw [hm]; exact hva
      · exact hv _ (List.mem_cons_of_mem a hm)
    have hflt : F.flt (skipRun a.time a (b :: rest)).1.time a.time = true := by
      rw [hunfold]
      exact skipRun_fst_flt a.time rest b h
    have htail : ValidLines (regularise (skipRun a.time a (b :: rest)).2) := by
      apply ih
      intro s hs
      exact hv s (List.mem_cons_of_mem a (skipRun_snd_mem a.time (b :: rest) a s hs))
    simp only [regularise, h, if_true]
    intro s hs
    rcases List.mem_cons.mp hs with rfl | hs
    · -- the bridging line
      simp only [validSeg, Bool.and_eq_true, Bool.or_eq_true, Bool.not_eq_true]
      simp only [validSeg, Bool.and_eq_true, Bool.not_eq_true] at hva
      exact ⟨⟨⟨hva.1.1.1, hva.1.1.2⟩, by simp [F.isNan, F.isNinf]⟩, by simp [F.isPosInf]⟩
    rcases List.mem_cons.mp hs with rfl | hs
    · exact resumed_valid a _ hva hvc hflt
    · exact htail s hs
  | case4 a b rest h ih =>
    intro hv
    simp only [regularise, eq_false_of_ne_true h]
    norm_num
    intro s hs
    rcases List.mem_cons.mp hs with rfl | hs
    · exact hv s (by simp)
    · exact ih (fun t ht => hv t (List.mem_cons_of_mem a ht)) s hs

theorem regularise_sorted : ∀ l : List Seg,
    (∀ s ∈ l, s.time.isNan = false) → TimesSorted (regularise l) := by
  intro l
  induction l using regularise.induct with
  | case1 => intro _; simp [regularise, TimesSorted]
  | case2 a => intro _; simp [regularise, TimesSorted]
  | case3 a b rest h p ih =>
    intro hn
    have hna : a.time.isNan = false := hn a (by simp)
    have hunfold : skipRun a.time a (b :: rest) = skipRun a.time b rest := by
      simp [skipRun, h]
    have htail : TimesSorted (regularise (skipRun a.time a (b :: rest)).2) := by
      apply ih
      intro s hs
      exact hn s (List.mem_cons_of_mem a (skipRun_snd_mem a.time (b :: rest) a s hs))
    simp only [regularise, h, if_true, TimesSorted]
    rw [List.chain'_cons]
    constructor
    · exact F.fle_refl hna
    · rw [List.chain'_cons']
      refine ⟨?_, htail⟩
      intro y hy
      cases hp : (skipRun a.time a (b :: rest)).2 with
      | nil => rw [hp] at hy; simp [regularise] at hy
      | cons w ws =>
        obtain ⟨z, hz, hzt⟩ := regularise_head w ws
        rw [hp, hz] at hy
        simp only [Option.mem_def, Option.some.injEq] at hy
        subst hy
        have hwflt : F.flt w.time a.time = false := skipRun_snd_head a.time (b :: rest) a w ws hp
        have hwn : w.time.isNan = false := by
          have hwmem : w ∈ b :: rest := skipRun_snd_mem a.time (b :: rest) a w (by rw [hp]; simp)
          exact hn w (List.mem_cons_of_mem a hwmem)
        rw [hzt]
        exact F.fle_of_not_flt hwn hna hwflt
  | case4 a b rest h ih =>
    intro hn
    have hna : a.time.isNan = false := hn a (by simp)
    have hnb : b.time.isNan = false := hn b (by simp)
    have htail : TimesSorted (regularise (b :: rest)) :=
      ih (fun t ht => hn t (List.mem_cons_of_mem a ht))
    simp only [regularise, eq_false_of_ne_true h, TimesSorted]
    norm_num
    rw [List.chain'_cons']
    refine ⟨?_, htail⟩
    intro y hy
    obtain ⟨z, hz, hzt⟩ := regularise_head b rest
    rw [hz] at hy
    simp only [Option.mem_def, Option.some.injEq] at hy
    subst hy
    rw [hzt]
    exact F.fle_of_not_flt hnb hna (eq_false_of_ne_true h)

/-! ## Lemmas about the cursor-advance loop -/

theorem advLoop_le (key : Seg → F) (target : F) :
    ∀ (l : List Seg) (c : Nat), advLoop key target c l ≤ c + l.length := by
  intro l
  induction l with
  | nil => intro c; simp [advLoop]
  | cons x xs ih =>
    intro c
    simp only [advLoop, List.length_cons]
    split
    · have := ih (c + 1); omega
    · omega

theorem advanceFrom_lt (lines : List Seg) (key : Seg → F) (target : F) (c : Nat)
    (hc : c < lines.length) : advanceFrom lines key target c < lines.length := by
  have h := advLoop_le key target (lines.drop (c + 1)) c
  have hd : (lines.drop (c + 1)).length = lines.length - (c + 1) := by simp
  simp only [advanceFrom]
  omega

/-- The loop satisfies the recurrence of the Python `while` loop. -/
theorem advanceFrom_rec (lines : List Seg) (key : Seg → F) (target : F) (c : Nat) :
    advanceFrom lines key target c =
      match lines.get? (c + 1) with
      | some nxt =>
        if F.flt (key nxt) target then advanceFrom lines key target (c + 1) else c
      | none => c := by
  cases h : lines.get? (c + 1) with
  | none =>
    have hlen : lines.length ≤ c + 1 := List.get?_eq_none.mp h
    simp only [advanceFrom]
    rw [List.drop_eq_nil_of_le hlen]
    simp [advLoop]
  | some x =>
    have hlt : c + 1 < lines.length := by
      by_contra hcon
      rw [List.get?_eq_none.mpr (by omega)] at h
      exact Option.noConfusion h
    have hx : lines[c + 1] = x := by
      rw [List.get?_eq_getElem?, List.getElem?_eq_getElem hlt] at h
      exact Option.some.injEq .. ▸ h.symm ▸ rfl
    have hdrop : lines.drop (c + 1) = lines[c + 1] :: lines.drop (c + 2) :=
      List.drop_eq_getElem_cons hlt
    simp only [advanceFrom, hdrop, advLoop, hx]

/-- Full characterisation of the cursor advance: the result is past the
start, in range, every line strictly between start (exclusive) and result
(inclusive) tests below the target, and the line after the result does not. -/
theorem advanceFrom_props (lines : List Seg) (key : Seg → F) (target : F) :
    ∀ (d c0 : Nat), lines.length - c0 ≤ d → c0 < lines.length →
      c0 ≤ advanceFrom lines key target c0 ∧
      advanceFrom lines key target c0 < lines.length ∧
      (∀ k, c0 < k → k ≤ advanceFrom lines key target c0 → ∀ s, lines.get? k = some s →
        F.flt (key s) target = true) ∧
      (∀ s, lines.get? (advanceFrom lines key target c0 + 1) = some s →
        F.flt (key s) target = false) := by
  intro d
  induction d with
  | zero => intro c0 h1 h2; exact absurd h2 (by omega)
  | succ d ih =>
    intro c0 h1 h2
    rw [advanceFrom_rec]
    cases h : lines.get? (c0 + 1) with
    | none =>
      dsimp only
      refine ⟨le_refl _, h2, ?_, ?_⟩
      · intro k hk1 hk2 s hs; omega
      · intro s hs; rw [h] at hs; exact Option.noConfusion hs
    | some x =>
      have hlt : c0 + 1 < lines.length := by
        by_contra hcon
        rw [List.get?_eq_none.mpr (by omega)] at h
        exact Option.noConfusion h
      by_cases hf : F.flt (key x) target = true
      · simp only [hf, if_true]
        obtain ⟨ha, hb, hc, hstop⟩ := ih (c0 + 1) (by omega) hlt
        refine ⟨by omega, hb, ?_, hstop⟩
        intro k hk1 hk2 s hs
        rcases Nat.lt_or_ge c0.succ k with hk | hk
        · exact hc k hk hk2 s hs
        · have hkeq : k = c0 + 1 := by omega
          subst hkeq
          rw [h] at hs
          obtain rfl : x = s := Option.some.inj hs
          exact hf
      · simp only [eq_false_of_ne_true hf, Bool.false_eq_true, if_false]
        refine ⟨le_refl _, h2, ?_, ?_⟩
        · intro k hk1 hk2 s hs; omega
        · intro s hs
          rw [h] at hs
          obtain rfl : x = s := Option.some.inj hs
          exact eq_false_of_ne_true hf

/-! ## Validity through `init_beat_bpms` and `add_beat_stops` -/

theorem validSeg_time_not_nan {s : Seg} (h : validSeg s = true) : s.time.isNan = false := by
  simp only [validSeg, Bool.and_eq_true] at h
  obtain ⟨q, hq⟩ := F.isFin_iff.mp h.1.1.1
  rw [hq]
  rfl

theorem validSeg_elim {s : Seg} (h : validSeg s = true) :
    (∃ t, s.time = F.fin t) ∧
    ((∃ m, s.bps = F.fin m) ∨ s.bps = F.inf) ∧
    ((∃ bq, s.beat = F.fin bq) ∨ (s.beat = F.inf ∧ s.bps = F.inf)) := by
  obtain ⟨t, b, m⟩ := s
  cases t <;> cases b <;> cases m <;>
    simp_all [validSeg, F.isFin, F.isNan, F.isNinf, F.isPosInf]

theorem validSeg_mk_fin (t bq : ℚ) (bps : F) (h1 : bps.isNan = false)
    (h2 : bps.isNinf = false) : validSeg ⟨F.fin t, F.fin bq, bps⟩ = true := by
  cases bps with
  | fin m => rfl
  | inf => rfl
  | ninf => simp [F.isNinf] at h2
  | nan => simp [F.isNan] at h1

theorem validSeg_bps_flags {s : Seg} (h : validSeg s = true) :
    s.bps.isNan = false ∧ s.bps.isNinf = false := by
  simp only [validSeg, Bool.and_eq_true] at h
  exact ⟨by simpa using h.1.2.1, by simpa using h.1.2.2⟩

theorem init_ok_elim {bpms : List (ℚ × ℚ)} {L : List Seg}
    (hok : init_beat_bpms bpms = .ok L) :
    ∃ first rest, bpms = first :: rest ∧ ascViolated bpms = false ∧
      (∀ p ∈ bpms, p.2 ≠ 0) ∧ first.1 = 0 ∧
      L = regularise (((0, 0, first.2 / 60) :: rawAux (0, 0, first.2 / 60) rest).map
            (fun t => ⟨F.fin t.1, F.fin t.2.1, F.fin t.2.2⟩)) := by
  cases bpms with
  | nil => simp [init_beat_bpms, ascViolated] at hok
  | cons first rest =>
    rw [init_beat_bpms] at hok
    rw [if_neg (by omega)] at hok
    by_cases h1 : ascViolated (first :: rest) = true
    · rw [if_pos h1] at hok; exact absurd hok (by simp)
    rw [if_neg h1] at hok
    by_cases h2 : (first :: rest).any (fun p => p.2 = 0) = true
    · rw [if_pos h2] at hok; exact absurd hok (by simp)
    rw [if_neg h2] at hok
    dsimp only at hok
    by_cases h3 : first.1 ≠ 0
    · rw [if_pos h3] at hok; exact absurd hok (by simp)
    rw [if_neg h3] at hok
    push_neg at h3
    refine ⟨first, rest, rfl, eq_false_of_ne_true h1, ?_, h3, ?_⟩
    · intro p hp hpz
      exact h2 (List.any_eq_true.mpr ⟨p, hp, by simp [hpz]⟩)
    · by_cases h4 : (regularise (((0, 0, first.2 / 60) ::
          rawAux (0, 0, first.2 / 60) rest).map
            (fun t => ⟨F.fin t.1, F.fin t.2.1, F.fin t.2.2⟩))).length = 0
      · rw [if_pos h4] at hok; exact absurd hok (by simp)
      · rw [if_neg h4] at hok
        injection hok with h5
        exact h5.symm

theorem init_sorted_valid {bpms : List (ℚ × ℚ)} {L : List Seg}
    (hok : init_beat_bpms bpms = .ok L) : TimesSorted L ∧ ValidLines L := by
  obtain ⟨first, rest, -, -, -, -, hL⟩ := init_ok_elim hok
  subst hL
  constructor
  · apply regularise_sorted
    intro s hs
    obtain ⟨t, -, rfl⟩ := List.mem_map.mp hs
    rfl
  · apply regularise_valid
    intro s hs
    obtain ⟨t, -, rfl⟩ := List.mem_map.mp hs
    rfl

theorem splitStops_valid (line : Seg) (leb : F) (hl : validSeg line = true) :
    ∀ (stack : List (ℚ × ℚ)) (off : ℚ) (r : List Seg × List (ℚ × ℚ) × ℚ),
      splitStops line leb off stack = .ok r → ∀ s ∈ r.1, validSeg s = true := by
  obtain ⟨⟨t, hts⟩, hbps, hbeat⟩ := validSeg_elim hl
  intro stack
  induction stack with
  | nil =>
    intro off r h
    simp only [splitStops] at h
    injection h with h
    subst h
    intro s hs
    simp at hs
  | cons bd rest ih =>
    obtain ⟨b, d⟩ := bd
    intro off r h
    simp only [splitStops] at h
    by_cases hb : F.flt (F.fin b) leb = true
    · rw [if_pos hb] at h
      by_cases hinf : F.isinf line.bps = true
      · rw [if_pos hinf] at h
        dsimp only at h
        cases hrec : splitStops line leb (off + d) rest with
        | error e => rw [hrec] at h; exact absurd h (by simp)
        | ok r' =>
          rw [hrec] at h
          dsimp only at h
          injection h with h
          subst h
          intro s hs
          rcases List.mem_cons.mp hs with rfl | hs
          · rw [hts]
            exact validSeg_mk_fin _ _ _ rfl rfl
          rcases List.mem_cons.mp hs with rfl | hs
          · rw [hts]
            exact validSeg_mk_fin _ _ _ (validSeg_bps_flags hl).1 (validSeg_bps_flags hl).2
          · exact ih (off + d) r' hrec s hs
      · rw [if_neg hinf] at h
        obtain ⟨m, hm⟩ : ∃ m, line.bps = F.fin m := by
          rcases hbps with hx | hx
          · exact hx
          · rw [hx] at hinf; simp [F.isinf] at hinf
        obtain ⟨bq, hbq⟩ : ∃ bq, line.beat = F.fin bq := by
          rcases hbeat with hx | ⟨hx1, hx2⟩
          · exact hx
          · rw [hx2] at hinf; simp [F.isinf] at hinf
        rw [hm, hbq] at h
        by_cases hm0 : m = 0
        · subst hm0
          rw [show F.fdivE (F.fsub (F.fin b) (F.fin bq)) (F.fin 0) =
              .error "ZeroDivisionError: float division by zero" from by
            simp [F.fdivE, F.fsub, F.fadd, F.fneg]] at h
          exact absurd h (by simp)
        · rw [show F.fdivE (F.fsub (F.fin b) (F.fin bq)) (F.fin m) =
              .ok (F.fin ((b + -bq) / m)) from by
            simp [F.fdivE, F.fsub, F.fadd, F.fneg, hm0]] at h
          dsimp only at h
          cases hrec : splitStops line leb (off + d) rest with
          | error e => rw [hrec] at h; exact absurd h (by simp)
          | ok r' =>
            rw [hrec] at h
            dsimp only at h
            injection h with h
            subst h
            intro s hs
            rcases List.mem_cons.mp hs with rfl | hs
            · rw [hts]
              exact validSeg_mk_fin _ _ _ rfl rfl
            rcases List.mem_cons.mp hs with rfl | hs
            · rw [hts]
              exact validSeg_mk_fin _ _ _ rfl rfl
            · exact ih (off + d) r' hrec s hs
    · rw [if_neg hb] at h
      injection h with h
      subst h
      intro s hs
      simp at hs

theorem validSeg_retime {s : Seg} (h : validSeg s = true) (t2 : ℚ) :
    validSeg ⟨F.fin t2, s.beat, s.bps⟩ = true := by
  simp only [validSeg, Bool.and_eq_true] at h ⊢
  exact ⟨⟨⟨rfl, h.1.1.2⟩, h.1.2⟩, h.2⟩

theorem addLines_valid :
    ∀ (l : List Seg) (stack : List (ℚ × ℚ)) (off : ℚ) (segs : List Seg),
      ValidLines l → addLines stack off l = .ok segs → ValidLines segs := by
  intro l
  induction l with
  | nil =>
    intro stack off segs hv h
    simp only [addLines] at h
    injection h with h
    subst h
    intro s hs
    simp at hs
  | cons line rest ih =>
    intro stack off segs hv h
    have hline : validSeg line = true := hv line (by simp)
    have hrests : ValidLines rest := fun s hs => hv s (List.mem_cons_of_mem line hs)
    obtain ⟨⟨t, hts⟩, -, -⟩ := validSeg_elim hline
    have hfirst : validSeg ⟨F.fadd line.time (F.fin off), line.beat, line.bps⟩ = true := by
      rw [hts]
      exact validSeg_retime hline (t + off)
    simp only [addLines] at h
    cases hhead : rest.head? with
    | none =>
      rw [hhead] at h
      dsimp only at h
      cases hsp : splitStops line F.inf off stack with
      | error e => rw [hsp] at h; exact absurd h (by simp)
      | ok r =>
        rw [hsp] at h
        dsimp only at h
        have hsps : ∀ s ∈ r.1, validSeg s = true :=
          splitStops_valid line F.inf hline stack off r hsp
        cases hst : r.2.1 with
        | nil =>
          rw [hst] at h
          dsimp only at h
          cases hrec : addLines [] r.2.2 rest with
          | error e => rw [hrec] at h; exact absurd h (by simp)
          | ok segs2 =>
            rw [hrec] at h
            dsimp only at h
            injection h with h
            subst h
            intro s hs
            rcases List.mem_cons.mp hs with rfl | hs
            · exact hfirst
            rcases List.mem_append.mp hs with hs | hs
            · exact hsps s hs
            · exact ih [] r.2.2 segs2 hrests hrec s hs
        | cons bd stRest =>
          obtain ⟨b, d⟩ := bd
          rw [hst] at h
          dsimp only at h
          rw [show F.beq F.inf (F.fin b) = false from rfl] at h
          simp only [Bool.false_eq_true, if_false] at h
          cases hrec : addLines ((b, d) :: stRest) r.2.2 rest with
          | error e => rw [hrec] at h; exact absurd h (by simp)
          | ok segs2 =>
            rw [hrec] at h
            dsimp only at h
            injection h with h
            subst h
            intro s hs
            rcases List.mem_cons.mp hs with rfl | hs
            · exact hfirst
            rcases List.mem_append.mp hs with hs | hs
            · exact hsps s hs
            · exact ih ((b, d) :: stRest) r.2.2 segs2 hrests hrec s hs
    | some nxt =>
      have hnxtmem : nxt ∈ rest := by
        cases rest with
        | nil => simp [List.head?] at hhead
        | cons x xs =>
          simp only [List.head?_cons, Option.some.injEq] at hhead
          subst hhead
          simp
      have hnv : validSeg nxt = true := hrests nxt hnxtmem
      obtain ⟨⟨tn, htn⟩, -, -⟩ := validSeg_elim hnv
      rw [hhead] at h
      dsimp only at h
      cases hsp : splitStops line nxt.beat off stack with
      | error e => rw [hsp] at h; exact absurd h (by simp)
      | ok r =>
        rw [hsp] at h
        dsimp only at h
        have hsps : ∀ s ∈ r.1, validSeg s = true :=
          splitStops_valid line nxt.beat hline stack off r hsp
        cases hst : r.2.1 with
        | nil =>
          rw [hst] at h
          dsimp only at h
          cases hrec : addLines [] r.2.2 rest with
          | error e => rw [hrec] at h; exact absurd h (by simp)
          | ok segs2 =>
            rw [hrec] at h
            dsimp only at h
            injection h with h
            subst h
            intro s hs
            rcases List.mem_cons.mp hs with rfl | hs
            · exact hfirst
            rcases List.mem_append.mp hs with hs | hs
            · exact hsps s hs
            · exact ih [] r.2.2 segs2 hrests hrec s hs
        | cons bd stRest =>
          obtain ⟨b, d⟩ := bd
          rw [hst] at h
          dsimp only at h
          by_cases hbq : F.beq nxt.beat (F.fin b) = true
          · rw [if_pos hbq] at h
            cases hrec : addLines stRest (r.2.2 + d) rest with
            | error e => rw [hrec] at h; exact absurd h (by simp)
            | ok segs2 =>
              rw [hrec] at h
              dsimp only at h
              injection h with h
              subst h
              have hbeat : nxt.beat = F.fin b := by
                cases hbb : nxt.beat <;> rw [hbb] at hbq <;> simp [F.beq] at hbq
                · rw [hbq]
              intro s hs
              rcases List.mem_cons.mp hs with rfl | hs
              · exact hfirst
              rcases List.mem_append.mp hs with hs | hs
              · exact hsps s hs
              rcases List.mem_cons.mp hs with rfl | hs
              · rw [htn, hbeat]
                exact validSeg_mk_fin _ _ _ rfl rfl
              · exact ih stRest (r.2.2 + d) segs2 hrests hrec s hs
          · rw [if_neg hbq] at h
            cases hrec : addLines ((b, d) :: stRest) r.2.2 rest with
            | error e => rw [hrec] at h; exact absurd h (by simp)
            | ok segs2 =>
              rw [hrec] at h
              dsimp only at h
              injection h with h
              subst h
              intro s hs
              rcases List.mem_cons.mp hs with rfl | hs
              · exact hfirst
              rcases List.mem_append.mp hs with hs | hs
              · exact hsps s hs
              · exact ih ((b, d) :: stRest) r.2.2 segs2 hrests hrec s hs

/-- Success of `add_beat_stops` on a valid map yields the regularisation of
the freshly built line set, which is again monotone and valid. -/
theorem add_sorted_valid {L : List Seg} {stops : List (ℚ × ℚ)} {L2 : List Seg}
    (hv : ValidLines L) (hok : add_beat_stops L stops = .ok L2) :
    TimesSorted L2 ∧ ValidLines L2 := by
  rw [add_beat_stops.eq_def] at hok
  cases hlast : L.getLast? with
  | none => rw [hlast] at hok; exact absurd hok (by simp)
  | some last =>
    rw [hlast] at hok
    dsimp only at hok
    cases hc : stopsCheck L last stops with
    | error e => rw [hc] at hok; exact absurd hok (by simp)
    | ok u =>
      rw [hc] at hok
      dsimp only at hok
      cases hadd : addLines ((buildStack (sortDesc stops)).reverse) 0 L with
      | error e => rw [hadd] at hok; exact absurd hok (by simp)
      | ok new_lines =>
        rw [hadd] at hok
        dsimp only at hok
        have hnewv : ValidLines new_lines := addLines_valid L _ 0 new_lines hv hadd
        by_cases hz : (regularise new_lines).length = 0
        · rw [if_pos hz] at hok; exact absurd hok (by simp)
        · rw [if_neg hz] at hok
          injection hok with hok
          subst hok
          constructor
          · exact regularise_sorted new_lines
              (fun s hs => validSeg_time_not_nan (hnewv s hs))
          · exact regularise_valid new_lines hnewv

/-! ## Safety of the query functions -/

theorem fdivE_ok_of_ne_zero (a b : F) (h : F.beq b (F.fin 0) = false) :
    ∃ q2, F.fdivE a b = .ok q2 := by
  cases b with
  | fin m =>
    have hm : ¬m = 0 := by simpa [F.beq] using h
    cases a <;> simp [F.fdivE, hm]
  | inf => cases a <;> simp [F.fdivE]
  | ninf => cases a <;> simp [F.fdivE]
  | nan => cases a <;> simp [F.fdivE]

theorem beat_at_time_safe (lines : List Seg) (x : F) (hint : Nat) (st wp : Bool)
    (hh : hint < lines.length) :
    ∃ v c seg, beat_at_time lines x hint st wp = .ok (v, c) ∧
      lines.get? c = some seg ∧
      (F.beq seg.bps (F.fin 0) = true → st = false → v = F.inf) ∧
      (F.isinf seg.bps = true → wp = false → v = F.inf) := by
  have hc : advanceFrom lines (fun s => s.time) x hint < lines.length :=
    advanceFrom_lt lines _ x hint hh
  obtain ⟨seg, hseg⟩ :
      ∃ seg, lines.get? (advanceFrom lines (fun s => s.time) x hint) = some seg := by
    rw [List.get?_eq_getElem?]
    exact ⟨_, List.getElem?_eq_getElem hc⟩
  simp only [beat_at_time]
  rw [hseg]
  dsimp only
  by_cases hz : F.beq seg.bps (F.fin 0) = true
  · rw [if_pos hz]
    refine ⟨_, _, seg, rfl, hseg, ?_, ?_⟩
    · intro _ hst; rw [hst]; simp
    · intro hinf _
      have : seg.bps = F.fin 0 := by
        cases hb : seg.bps <;> rw [hb] at hz <;> simp [F.beq] at hz
        · rw [hz]
      rw [this] at hinf
      simp [F.isinf] at hinf
  · rw [if_neg hz]
    by_cases hi : F.isinf seg.bps = true
    · rw [if_pos hi]
      refine ⟨_, _, seg, rfl, hseg, ?_, ?_⟩
      · intro hz2; exact absurd hz2 hz
      · intro _ hwp; rw [hwp]; simp
    · rw [if_neg hi]
      refine ⟨_, _, seg, rfl, hseg, ?_, ?_⟩
      · intro hz2; exact absurd hz2 hz
      · intro hi2; exact absurd hi2 hi

theorem time_at_beat_safe (lines : List Seg) (x : F) (hint : Nat) (st wp : Bool)
    (hh : hint < lines.length) :
    ∃ v c seg, time_at_beat lines x hint st wp = .ok (v, c) ∧
      lines.get? c = some seg ∧
      (F.beq seg.bps (F.fin 0) = true → st = false → v = F.inf) ∧
      (F.isinf seg.bps = true → wp = false → v = F.inf) := by
  have hc : advanceFrom lines (fun s => s.beat) x hint < lines.length :=
    advanceFrom_lt lines _ x hint hh
  obtain ⟨seg, hseg⟩ :
      ∃ seg, lines.get? (advanceFrom lines (fun s => s.beat) x hint) = some seg := by
    rw [List.get?_eq_getElem?]
    exact ⟨_, List.getElem?_eq_getElem hc⟩
  simp only [time_at_beat]
  rw [hseg]
  dsimp only
  rw [if_neg (by omega)]
  by_cases hz : F.beq seg.bps (F.fin 0) = true
  · rw [if_pos hz]
    refine ⟨_, _, seg, rfl, hseg, ?_, ?_⟩
    · intro _ hst; rw [hst]; simp
    · intro hinf _
      have : seg.bps = F.fin 0 := by
        cases hb : seg.bps <;> rw [hb] at hz <;> simp [F.beq] at hz
        · rw [hz]
      rw [this] at hinf
      simp [F.isinf] at hinf
  · rw [if_neg hz]
    by_cases hi : F.isinf seg.bps = true
    · rw [if_pos hi]
      refine ⟨_, _, seg, rfl, hseg, ?_, ?_⟩
      · intro hz2; exact absurd hz2 hz
      · intro _ hwp; rw [hwp]; simp
    · rw [if_neg hi]
      obtain ⟨q2, hq2⟩ := fdivE_ok_of_ne_zero (F.fsub x seg.beat) seg.bps
        (eq_false_of_ne_true hz)
      rw [hq2]
      refine ⟨_, _, seg, rfl, hseg, ?_, ?_⟩
      · intro hz2; exact absurd hz2 hz
      · intro hi2; exact absurd hi2 hi

/-! ## Round-trip machinery for all-positive-BPM charts (claim C5)

With strictly positive BPMs the stitched raw lines already have strictly
increasing start times, `regularise` is the identity, every stored field is
finite, and the piecewise map is a continuous strictly increasing bijection,
so `time_at_beat` inverts `beat_at_time` exactly. -/

def timeQ (s : Seg) : ℚ :=
  match s.time with
  | .fin q => q
  | _ => 0

def beatQ (s : Seg) : ℚ :=
  match s.beat with
  | .fin q => q
  | _ => 0

def bpsQ (s : Seg) : ℚ :=
  match s.bps with
  | .fin q => q
  | _ => 0

/-- Shape of a stored map coming from `init_beat_bpms` on an all-positive
tempo list: nonempty, all fields finite with positive bps, start times
strictly increasing, and consecutive lines joined end-to-end
(`beat2 = bps1 * (time2 - time1) + beat1`). -/
def GoodL (L : List Seg) : Prop :=
  L ≠ [] ∧
  (∀ s ∈ L, s.time = F.fin (timeQ s) ∧ s.beat = F.fin (beatQ s) ∧
    s.bps = F.fin (bpsQ s) ∧ 0 < bpsQ s) ∧
  List.Chain' (fun s s2 => timeQ s < timeQ s2 ∧
    beatQ s2 = bpsQ s * (timeQ s2 - timeQ s) + beatQ s) L

theorem ascChain : ∀ l : List (ℚ × ℚ), ascViolated l = false →
    List.Chain' (fun p q => p.1 < q.1) l
  | [] => by intro h; simp
  | [a] => by intro h; simp
  | a :: b :: rest => by
    intro h
    simp only [ascViolated, Bool.or_eq_false_iff] at h
    rw [List.chain'_cons]
    refine ⟨?_, ascChain (b :: rest) h.2⟩
    have := h.1
    simp only [decide_eq_false_iff_not, ge_iff_le, not_le] at this
    exact this

theorem regularise_id : ∀ l : List Seg,
    List.Chain' (fun s s2 => F.flt s2.time s.time = false) l → regularise l = l := by
  intro l
  induction l using regularise.induct with
  | case1 => intro _; simp [regularise]
  | case2 a => intro _; simp [regularise]
  | case3 a b rest h p ih =>
    intro hch
    rw [List.chain'_cons] at hch
    rw [hch.1] at h
    exact absurd h (by simp)
  | case4 a b rest h ih =>
    intro hch
    rw [List.chain'_cons] at hch
    simp only [regularise, eq_false_of_ne_true h, Bool.false_eq_true, if_false]
    rw [ih hch.2]

theorem rawAux_good : ∀ (rest : List (ℚ × ℚ)) (prev : ℚ × ℚ × ℚ),
    0 < prev.2.2 → (∀ p ∈ rest, 0 < p.2) →
    List.Chain (fun x y : ℚ => x < y) prev.2.1 (rest.map Prod.fst) →
    (∀ s ∈ rawAux prev rest, 0 < s.2.2) ∧
      List.Chain (fun p q : ℚ × ℚ × ℚ =>
        p.1 < q.1 ∧ q.2.1 = p.2.2 * (q.1 - p.1) + p.2.1) prev (rawAux prev rest) := by
  intro rest
  induction rest with
  | nil => intro prev h1 h2 h3; exact ⟨by simp [rawAux], by simp [rawAux]⟩
  | cons hd tl ih =>
    intro prev h1 h2 h3
    obtain ⟨b, bpm⟩ := hd
    simp only [List.map_cons, List.chain_cons] at h3
    have hb : prev.2.1 < b := h3.1
    have hbpm : 0 < bpm := h2 (b, bpm) (by simp)
    have hcur : (0 : ℚ) < bpm / 60 := by positivity
    obtain ⟨iha, ihb⟩ := ih ((b - prev.2.1) / prev.2.2 + prev.1, b, bpm / 60)
      hcur (fun p hp => h2 p (by simp [hp])) (by simpa using h3.2)
    constructor
    · intro s hs
      simp only [rawAux, List.mem_cons] at hs
      rcases hs with rfl | hs
      · exact hcur
      · exact iha s hs
    · simp only [rawAux, List.chain_cons]
      refine ⟨⟨?_, ?_⟩, ihb⟩
      · have : (0 : ℚ) < (b - prev.2.1) / prev.2.2 := by
          apply div_pos (by linarith) h1
        linarith
      · have hne : prev.2.2 ≠ 0 := ne_of_gt h1
        field_simp
        ring

theorem init_pos_good {bpms : List (ℚ × ℚ)} {L : List Seg}
    (hpos : ∀ p ∈ bpms, 0 < p.2) (hok : init_beat_bpms bpms = .ok L) : GoodL L := by
  obtain ⟨first, rest, rfl, hasc, -, hfz, hL⟩ := init_ok_elim hok
  have hfirstpos : 0 < first.2 := hpos first (by simp)
  have hp0 : (0 : ℚ) < first.2 / 60 := by positivity
  have hascchain : List.Chain (fun x y : ℚ => x < y) first.1 (rest.map Prod.fst) := by
    have hch : List.Chain (fun p q : ℚ × ℚ => p.1 < q.1) first rest :=
      ascChain (first :: rest) hasc
    exact (List.chain_map Prod.fst).mpr hch
  rw [hfz] at hascchain
  obtain ⟨hposall, hchain⟩ := rawAux_good rest (0, 0, first.2 / 60) hp0
    (fun p hp => hpos p (by simp [hp])) (by simpa using hascchain)
  have hregid : regularise (((0, 0, first.2 / 60) :: rawAux (0, 0, first.2 / 60) rest).map
      (fun t => ⟨F.fin t.1, F.fin t.2.1, F.fin t.2.2⟩)) =
      ((0, 0, first.2 / 60) :: rawAux (0, 0, first.2 / 60) rest).map
        (fun t => ⟨F.fin t.1, F.fin t.2.1, F.fin t.2.2⟩) := by
    apply regularise_id
    rw [List.map_cons]
    show List.Chain _ _ _
    refine (List.chain_map
      (fun t : ℚ × ℚ × ℚ => (⟨F.fin t.1, F.fin t.2.1, F.fin t.2.2⟩ : Seg))).mpr ?_
    refine hchain.imp ?_
    intro a b hab
    have hnl : ¬ b.1 < a.1 := not_lt.mpr (le_of_lt hab.1)
    simp [F.flt, hnl]
  rw [hregid] at hL
  subst hL
  refine ⟨by simp, ?_, ?_⟩
  · intro s hs
    obtain ⟨t, ht, rfl⟩ := List.mem_map.mp hs
    refine ⟨rfl, rfl, rfl, ?_⟩
    rcases List.mem_cons.mp ht with rfl | ht
    · exact hp0
    · exact hposall t ht
  · rw [List.map_cons]
    show List.Chain _ _ _
    refine (List.chain_map
      (fun t : ℚ × ℚ × ℚ => (⟨F.fin t.1, F.fin t.2.1, F.fin t.2.2⟩ : Seg))).mpr ?_
    refine hchain.imp ?_
    intro a b hab
    exact hab

theorem goodL_beat_chain {L : List Seg} (hG : GoodL L) :
    List.Chain' (fun s s2 => beatQ s < beatQ s2) L := by
  obtain ⟨-, hmem, hchain⟩ := hG
  induction L with
  | nil => simp
  | cons x xs ih =>
    rw [List.chain'_cons'] at hchain ⊢
    obtain ⟨hhead, htail⟩ := hchain
    refine ⟨?_, ih (fun s hs => hmem s (List.mem_cons_of_mem x hs)) htail⟩
    intro y hy
    have hstep := hhead y hy
    have hx := hmem x (by simp)
    have hp : 0 < bpsQ x * (timeQ y - timeQ x) :=
      mul_pos hx.2.2.2 (by linarith [hstep.1])
    linarith [hstep.2]

theorem get_of_get? {L : List Seg} {n : Nat} (hn : n < L.length) {s : Seg}
    (h : L.get? n = some s) : L.get ⟨n, hn⟩ = s := by
  rw [List.get?_eq_get hn] at h
  exact Option.some.inj h

theorem roundtrip_of_good {L : List Seg} (hG : GoodL L) (t : ℚ) :
    ∃ b c, beat_at_time L (F.fin t) 0 false false = .ok (F.fin b, c) ∧
      time_at_beat L (F.fin b) 0 false false = .ok (F.fin t, c) := by
  obtain ⟨hne, hmem, hchain⟩ := hG
  have hlen : 0 < L.length := List.length_pos.mpr hne
  obtain ⟨-, hclt, hmid, hstop⟩ :=
    advanceFrom_props L (fun s => s.time) (F.fin t) L.length 0 (by omega) hlen
  set c := advanceFrom L (fun s => s.time) (F.fin t) 0 with hc
  obtain ⟨seg, hseg⟩ : ∃ seg, L.get? c = some seg := by
    rw [List.get?_eq_getElem?]
    exact ⟨_, List.getElem?_eq_getElem hclt⟩
  have hsegmem : seg ∈ L := List.get?_mem hseg
  obtain ⟨hst, hsb, hsm, hpos⟩ := hmem seg hsegmem
  set b := bpsQ seg * (t - timeQ seg) + beatQ seg with hb
  have htc : 0 < c → timeQ seg < t := by
    intro hc0
    have hx := hmid c hc0 (le_refl c) seg hseg
    rw [hst] at hx
    simpa [F.flt] using hx
  have hnext : ∀ s2, L.get? (c + 1) = some s2 → t ≤ timeQ s2 := by
    intro s2 hs2
    have hx := hstop s2 hs2
    have hmem2 := hmem s2 (List.get?_mem hs2)
    rw [hmem2.1] at hx
    have hnl : ¬ (timeQ s2 < t) := by simpa [F.flt] using hx
    linarith
  have hcont : ∀ s2, L.get? (c + 1) = some s2 →
      beatQ s2 = bpsQ seg * (timeQ s2 - timeQ seg) + beatQ seg := by
    intro s2 hs2
    have hlt1 : c + 1 < L.length := by
      by_contra hcon
      rw [List.get?_eq_none.mpr (by omega)] at hs2
      exact Option.noConfusion hs2
    have h1 : c < L.length - 1 := by omega
    have hx := List.chain'_iff_get.mp hchain c h1
    rw [get_of_get? hclt hseg] at hx
    rw [get_of_get? hlt1 hs2] at hx
    exact hx.2
  have hbc : 0 < c → beatQ seg < b := by
    intro hc0
    have h1 := htc hc0
    have h2 : 0 < bpsQ seg * (t - timeQ seg) := mul_pos hpos (by linarith)
    rw [hb]
    linarith
  have hble : ∀ s2, L.get? (c + 1) = some s2 → b ≤ beatQ s2 := by
    intro s2 hs2
    have h1 := hnext s2 hs2
    have h2 := hcont s2 hs2
    have h3 : 0 ≤ bpsQ seg * (timeQ s2 - t) := mul_nonneg hpos.le (by linarith)
    rw [hb]
    nlinarith
  have hpwb : List.Pairwise (fun s s2 => beatQ s < beatQ s2) L := by
    haveI : IsTrans Seg (fun s s2 => beatQ s < beatQ s2) :=
      ⟨fun a b2 c2 h1 h2 => lt_trans h1 h2⟩
    rw [← List.chain'_iff_pairwise]
    exact goodL_beat_chain ⟨hne, hmem, hchain⟩
  obtain ⟨-, hclt2, hmid2, hstop2⟩ :=
    advanceFrom_props L (fun s => s.beat) (F.fin b) L.length 0 (by omega) hlen
  set c2 := advanceFrom L (fun s => s.beat) (F.fin b) 0 with hc2
  have hc2c : c2 = c := by
    rcases lt_trichotomy c2 c with hlt | heq | hgt
    · exfalso
      have hlt1 : c2 + 1 < L.length := by omega
      obtain ⟨s3, hs3⟩ : ∃ s3, L.get? (c2 + 1) = some s3 := by
        rw [List.get?_eq_getElem?]
        exact ⟨_, List.getElem?_eq_getElem hlt1⟩
      have hflt := hstop2 s3 hs3
      have hmem3 := hmem s3 (List.get?_mem hs3)
      rw [hmem3.2.1] at hflt
      have hnb : ¬ (beatQ s3 < b) := by simpa [F.flt] using hflt
      have hc0 : 0 < c := by omega
      have h1 : beatQ s3 ≤ beatQ seg := by
        rcases eq_or_lt_of_le (show c2 + 1 ≤ c by omega) with heq2 | hlt2
        · rw [heq2] at hs3
          rw [hseg] at hs3
          exact le_of_eq (congrArg beatQ (Option.some.inj hs3)).symm
        · have hpw := List.pairwise_iff_get.mp hpwb ⟨c2 + 1, hlt1⟩ ⟨c, hclt⟩ hlt2
          rw [get_of_get? hlt1 hs3, get_of_get? hclt hseg] at hpw
          exact le_of_lt hpw
      exact hnb (lt_of_le_of_lt h1 (hbc hc0))
    · exact heq
    · exfalso
      have hlt1 : c + 1 < L.length := by omega
      obtain ⟨s2, hs2⟩ : ∃ s2, L.get? (c + 1) = some s2 := by
        rw [List.get?_eq_getElem?]
        exact ⟨_, List.getElem?_eq_getElem hlt1⟩
      have hflt := hmid2 (c + 1) (by omega) (by omega) s2 hs2
      have hmem2 := hmem s2 (List.get?_mem hs2)
      rw [hmem2.2.1] at hflt
      have hlt2 : beatQ s2 < b := by simpa [F.flt] using hflt
      exact absurd hlt2 (not_lt.mpr (hble s2 hs2))
  refine ⟨b, c, ?_, ?_⟩
  · simp only [beat_at_time]
    rw [← hc]
    rw [hseg]
    dsimp only
    rw [hsm]
    rw [if_neg (by simp [F.beq]; exact hpos.ne')]
    rw [if_neg (by simp [F.isinf])]
    rw [hst, hsb]
    suffices hval : F.fadd (F.fmul (F.fin (bpsQ seg)) (F.fsub (F.fin t) (F.fin (timeQ seg))))
        (F.fin (beatQ seg)) = F.fin b by rw [hval]
    simp only [F.fsub, F.fadd, F.fneg, F.fmul, hb]
    congr 1
    ring
  · simp only [time_at_beat]
    rw [← hc2, hc2c]
    rw [hseg]
    dsimp only
    rw [if_neg (by omega)]
    rw [hsm]
    rw [if_neg (by simp [F.beq]; exact hpos.ne')]
    rw [if_neg (by simp [F.isinf])]
    rw [hsb]
    rw [show F.fdivE (F.fsub (F.fin b) (F.fin (beatQ seg))) (F.fin (bpsQ seg)) =
        .ok (F.fin ((b + -beatQ seg) / bpsQ seg)) from by
      simp [F.fdivE, F.fsub, F.fadd, F.fneg, hpos.ne']]
    simp only [Bind.bind, Except.bind]
    rw [hst]
    suffices hval : F.fadd (F.fin ((b + -beatQ seg) / bpsQ seg)) (F.fin (timeQ seg))
        = F.fin t by rw [hval]
    simp only [F.fadd]
    congr 1
    rw [hb]
    have hm := hpos.ne'
    field_simp

/-! ## Note-level facts used by the dispatcher invariants -/

/-- For an unjudged note, the judgement stored after `press` is exactly the
judgement `press` returns (every variant returns what it has just written,
or leaves `None` in place). -/
theorem press_judgement_eq {n : Note} (h : n.judgement = none) (t : ℚ) :
    ((n.press t).1).judgement = (n.press t).2 := by
  cases hk : n.kind <;> simp only [Note.press, hk] <;> split_ifs <;> simp [h]

/-- Same fact for `poll`. -/
theorem poll_judgement_eq {n : Note} (h : n.judgement = none) (t : ℚ) (hd : Bool) :
    ((n.poll t hd).1).judgement = (n.poll t hd).2 := by
  cases hk : n.kind <;> simp only [Note.poll, hk] <;> split_ifs <;> simp [h]

/-- `release` never changes a note and never returns a judgement. -/
theorem release_eq (n : Note) (t : ℚ) : n.release t = (n, none) := rfl

/-! ## The dispatcher's write-once discipline (claim C1, amended)

`GameField` only ever delivers events to the note a lane's cursor points at,
and advances the cursor exactly when a call returns a judgement.  As long as
every note at or past its lane's cursor is still unjudged (true at
construction, where all notes start with `judgement = None`), this stays
true forever, and a note whose judgement has been recorded never receives
another event — so its judgement never changes. -/

/-- All notes at or past each lane's cursor are unjudged, and columns and
cursors are the parallel lists `GameField.__init__` builds. -/
def Unjudged (s : GameField) : Prop :=
  s.note_cursors.length = s.note_columns.length ∧
  ∀ k col, s.note_columns.get? k = some col →
    ∀ i n, col.get? i = some n → s.note_cursors.getD k 0 ≤ i → n.judgement = none

/-- The judgement stored on the note at lane `k`, index `i`. -/
def judgementAt (s : GameField) (k i : Nat) : Option Judgement :=
  match s.note_columns.get? k with
  | some col =>
    match col.get? i with
    | some n => n.judgement
    | none => none
  | none => none

theorem pollRun_spec (t : ℚ) (hd : Bool) :
    ∀ (l : List Note) (counts : Judgement → Nat) (lastj : Option Judgement),
      (∀ n ∈ l, n.judgement = none) →
      (GameField.pollRun t hd l counts lastj).1.length = l.length ∧
      (GameField.pollRun t hd l counts lastj).2.1 ≤ l.length ∧
      (∀ i n2, (GameField.pollRun t hd l counts lastj).1.get? i = some n2 →
        (GameField.pollRun t hd l counts lastj).2.1 ≤ i → n2.judgement = none) := by
  intro l
  induction l with
  | nil =>
    intro counts lastj h
    refine ⟨rfl, by simp [GameField.pollRun], ?_⟩
    intro i n2 h2
    simp [GameField.pollRun] at h2
  | cons note rest ih =>
    intro counts lastj h
    have hnote : note.judgement = none := h note (by simp)
    have hrest : ∀ n ∈ rest, n.judgement = none := fun n hn => h n (by simp [hn])
    simp only [GameField.pollRun]
    cases hp : (note.poll t hd).2 with
    | none =>
      dsimp only
      refine ⟨by simp, by simp, ?_⟩
      intro i n2 h2 hle
      cases i with
      | zero =>
        simp only [List.get?_cons_zero, Option.some.injEq] at h2
        rw [← h2]
        rw [poll_judgement_eq hnote t hd, hp]
      | succ i2 =>
        simp only [List.get?_cons_succ] at h2
        exact hrest n2 (List.mem_iff_get?.mpr ⟨i2, h2⟩)
    | some j =>
      dsimp only
      obtain ⟨ihl, ihc, ihj⟩ := ih (bumpCount counts j) (some j) hrest
      refine ⟨by simp [ihl], by simp only [List.length_cons]; omega, ?_⟩
      intro i n2 h2 hle
      cases i with
      | zero => omega
      | succ i2 =>
        simp only [List.get?_cons_succ] at h2
        exact ihj i2 n2 h2 (by omega)

theorem pollColumn_spec (t : ℚ) (hd : Bool) (col : List Note) (cur : Nat)
    (counts : Judgement → Nat) (lastj : Option Judgement) (complete : Bool)
    (hcol : ∀ i n, col.get? i = some n → cur ≤ i → n.judgement = none) :
    (GameField.pollColumn t hd col cur counts lastj complete).1.length = col.length ∧
    cur ≤ (GameField.pollColumn t hd col cur counts lastj complete).2.1 ∧
    (∀ i n2, (GameField.pollColumn t hd col cur counts lastj complete).1.get? i = some n2 →
      (GameField.pollColumn t hd col cur counts lastj complete).2.1 ≤ i → n2.judgement = none) ∧
    (∀ i, i < cur →
      (GameField.pollColumn t hd col cur counts lastj complete).1.get? i = col.get? i) := by
  have hdropu : ∀ n ∈ col.drop cur, n.judgement = none := by
    intro n hn
    obtain ⟨i, hi⟩ := List.mem_iff_get?.mp hn
    rw [List.get?_drop] at hi
    exact hcol (cur + i) n hi (by omega)
  obtain ⟨hl, hc, hj⟩ := pollRun_spec t hd (col.drop cur) counts lastj hdropu
  have hdl : (col.drop cur).length = col.length - cur := by simp
  have htl : (col.take cur).length = min cur col.length := by simp
  simp only [GameField.pollColumn]
  refine ⟨?_, ?_, ?_, ?_⟩
  · simp only [List.length_append, htl, hl, hdl]
    omega
  · omega
  · intro i n2 h2 hle
    by_cases hcl : cur ≤ col.length
    · have hicur : cur ≤ i := by omega
      rw [List.get?_append_right (by omega)] at h2
      refine hj (i - (col.take cur).length) n2 h2 ?_
      simp only [htl]
      omega
    · -- cursor already past the end: the drop is empty, nothing is polled
      have hde : col.drop cur = [] := List.drop_eq_nil_of_le (by omega)
      rw [hde] at h2 hle
      have hrun : GameField.pollRun t hd ([] : List Note) counts lastj =
          ([], 0, counts, lastj, false) := rfl
      rw [hrun] at h2 hle
      simp only [List.append_nil] at h2
      rw [List.take_of_length_le (by omega)] at h2
      exact hcol i n2 h2 (by omega)
  · intro i hi
    by_cases hil : i < col.length
    · rw [List.get?_append (by simp; omega)]
      exact List.get?_take hi
    · rw [List.get?_eq_none.mpr (by simp [htl, hl, hdl]; omega),
        List.get?_eq_none.mpr (by omega)]

theorem getD_set_ne (l : List Nat) (a b : Nat) (x : Nat) (h : a ≠ b) :
    (l.set a x).getD b 0 = l.getD b 0 := by
  simp only [List.getD_eq_getElem?_getD]
  rw [List.getElem?_set_ne h]

theorem pollLanes_spec (t : ℚ) (held : List Bool) :
    ∀ (cols : List (List Note)) (idx : Nat) (cursors : List Nat)
      (counts : Judgement → Nat) (lastj : Option Judgement) (complete : Bool),
      cursors.length = cols.length →
      (∀ k col, cols.get? k = some col → ∀ i n, col.get? i = some n →
        cursors.getD k 0 ≤ i → n.judgement = none) →
      (GameField.pollLanes t held idx cols cursors counts lastj complete).1.length
          = cols.length ∧
      (GameField.pollLanes t held idx cols cursors counts lastj complete).2.1.length
          = cols.length ∧
      (∀ k col, (GameField.pollLanes t held idx cols cursors counts lastj complete).1.get? k
          = some col → ∀ i n, col.get? i = some n →
        (GameField.pollLanes t held idx cols cursors counts lastj complete).2.1.getD k 0 ≤ i →
        n.judgement = none) ∧
      (∀ k col col2,
        cols.get? k = some col →
        (GameField.pollLanes t held idx cols cursors counts lastj complete).1.get? k
          = some col2 →
        ∀ i, i < cursors.getD k 0 → col2.get? i = col.get? i) := by
  intro cols
  induction cols with
  | nil =>
    intro idx cursors counts lastj complete hlen hu
    refine ⟨rfl, rfl, ?_, ?_⟩
    · intro k col hk
      simp [GameField.pollLanes] at hk
    · intro k col col2 hk
      simp at hk
  | cons col restCols ih =>
    intro idx cursors counts lastj complete hlen hu
    cases cursors with
    | nil => simp at hlen
    | cons cur restCurs =>
      simp only [List.length_cons] at hlen
      have hcol0 : ∀ i n, col.get? i = some n → cur ≤ i → n.judgement = none := by
        intro i n hi hc
        exact hu 0 col (by simp) i n hi (by simpa using hc)
      obtain ⟨hcl, hcc, hcj, hcpres⟩ :=
        pollColumn_spec t (held.getD idx false) col cur counts lastj complete hcol0
      simp only [GameField.pollLanes, List.headD_cons, List.tail_cons]
      set rc := GameField.pollColumn t (held.getD idx false) col cur counts lastj complete
        with hrc
      obtain ⟨ihl, ihcl, ihj, ihpres⟩ := ih (idx + 1) restCurs rc.2.2.1 rc.2.2.2.1 rc.2.2.2.2
        (by omega)
        (by
          intro k col2 hk i n hi hc
          exact hu (k + 1) col2 (by simpa using hk) i n hi (by simpa using hc))
      refine ⟨by simp [ihl], by simp [ihcl], ?_, ?_⟩
      · intro k col2 hk i n hi hc
        cases k with
        | zero =>
          simp only [List.get?_cons_zero, Option.some.injEq] at hk
          subst hk
          exact hcj i n hi (by simpa using hc)
        | succ k2 =>
          simp only [List.get?_cons_succ] at hk
          exact ihj k2 col2 hk i n hi (by simpa using hc)
      · intro k col2 col3 hk hk2 i hi
        cases k with
        | zero =>
          simp only [List.get?_cons_zero, Option.some.injEq] at hk hk2
          subst hk
          subst hk2
          exact hcpres i (by simpa using hi)
        | succ k2 =>
          simp only [List.get?_cons_succ] at hk hk2
          exact ihpres k2 col2 col3 hk hk2 i (by simpa using hi)


theorem press_key_eq_none (s : GameField) (k0 : Nat) (t : ℚ)
    (h : (s.note_columns.getD k0 []).get? (s.note_cursors.getD k0 0) = none) :
    s.press_key k0 t = s := by
  simp only [GameField.press_key]
  rw [h]

theorem press_key_eq_unjudged (s : GameField) (k0 : Nat) (t : ℚ) (note : Note)
    (hcol : (s.note_columns.getD k0 []).get? (s.note_cursors.getD k0 0) = some note)
    (hp : (note.press t).2 = none) :
    s.press_key k0 t =
      { s with
          note_columns :=
            s.note_columns.set k0
              ((s.note_columns.getD k0 []).set (s.note_cursors.getD k0 0) (note.press t).1) } := by
  simp only [GameField.press_key]
  rw [hcol]
  dsimp only
  rw [hp]

theorem press_key_eq_judged (s : GameField) (k0 : Nat) (t : ℚ) (note : Note) (j : Judgement)
    (hcol : (s.note_columns.getD k0 []).get? (s.note_cursors.getD k0 0) = some note)
    (hp : (note.press t).2 = some j) :
    s.press_key k0 t =
      { s with
          note_columns :=
            s.note_columns.set k0
              ((s.note_columns.getD k0 []).set (s.note_cursors.getD k0 0) (note.press t).1),
          judgement_counts := bumpCount s.judgement_counts j,
          last_judgement := some j,
          note_cursors := s.note_cursors.set k0 (s.note_cursors.getD k0 0 + 1) } := by
  simp only [GameField.press_key]
  rw [hcol]
  dsimp only
  rw [hp]

theorem release_key_eq_none (s : GameField) (k0 : Nat) (t : ℚ)
    (h : (s.note_columns.getD k0 []).get? (s.note_cursors.getD k0 0) = none) :
    s.release_key k0 t = s := by
  simp only [GameField.release_key]
  rw [h]

theorem release_key_eq_some (s : GameField) (k0 : Nat) (t : ℚ) (note : Note)
    (hcol : (s.note_columns.getD k0 []).get? (s.note_cursors.getD k0 0) = some note) :
    s.release_key k0 t =
      { s with
          note_columns :=
            s.note_columns.set k0
              ((s.note_columns.getD k0 []).set (s.note_cursors.getD k0 0) note) } := by
  simp only [GameField.release_key]
  rw [hcol]
  dsimp only [Note.release]

theorem set_get?_self {α : Type} (l : List α) (i : Nat) (a : α)
    (h : l.get? i = some a) : l.set i a = l := by
  induction l generalizing i with
  | nil => simp at h
  | cons b rest ih =>
    cases i with
    | zero =>
      simp only [List.get?_cons_zero, Option.some.injEq] at h
      simp [h]
    | succ i2 =>
      simp only [List.get?_cons_succ] at h
      simp [ih i2 h]

theorem get?_getD_of_lt {α : Type} (l : List α) (k : Nat) (d : α) (h : k < l.length) :
    l.get? k = some (l.getD k d) := by
  rw [List.getD_eq_getElem?_getD, List.get?_eq_getElem?, List.getElem?_eq_getElem h]
  rfl

theorem getD_set_eq (l : List Nat) (a x : Nat) (h : a < l.length) :
    (l.set a x).getD a 0 = x := by
  rw [List.getD_eq_getElem?_getD, ← List.get?_eq_getElem?, List.get?_set_eq_of_lt _ h]
  rfl

/-- `release_key` never changes the state: `release` is a no-op returning
`None` on every note variant (lines 64-75 only act on a non-None result). -/
theorem release_key_id (s : GameField) (k0 : Nat) (t : ℚ) :
    s.release_key k0 t = s := by
  cases hcol : (s.note_columns.getD k0 []).get? (s.note_cursors.getD k0 0) with
  | none => exact release_key_eq_none s k0 t hcol
  | some note =>
    have hk0 : k0 < s.note_columns.length := by
      by_contra hk
      rw [List.getD_eq_default] at hcol
      · simp at hcol
      · omega
    rw [release_key_eq_some s k0 t note hcol, set_get?_self _ _ _ hcol,
      set_get?_self _ _ _ (get?_getD_of_lt s.note_columns k0 [] hk0)]

/-- Under the invariant, a judged note sits strictly below its lane cursor. -/
theorem judged_lt_cursor (s : GameField) (hU : Unjudged s) (k i : Nat) (j : Judgement)
    (h : judgementAt s k i = some j) : i < s.note_cursors.getD k 0 := by
  by_contra hge
  simp only [judgementAt] at h
  cases hk : s.note_columns.get? k with
  | none =>
    rw [hk] at h
    simp at h
  | some col =>
    rw [hk] at h
    dsimp only at h
    cases hi : col.get? i with
    | none =>
      rw [hi] at h
      simp at h
    | some n =>
      rw [hi] at h
      dsimp only at h
      rw [hU.2 k col hk i n hi (by omega)] at h
      simp at h

/-- `press_key` preserves the invariant and leaves every note strictly below
its lane's cursor untouched. -/
theorem press_key_spec (s : GameField) (k0 : Nat) (t : ℚ) (hU : Unjudged s) :
    Unjudged (s.press_key k0 t) ∧
    ∀ k i, i < s.note_cursors.getD k 0 →
      judgementAt (s.press_key k0 t) k i = judgementAt s k i := by
  cases hcol : (s.note_columns.getD k0 []).get? (s.note_cursors.getD k0 0) with
  | none =>
    rw [press_key_eq_none s k0 t hcol]
    exact ⟨hU, fun _ _ _ => rfl⟩
  | some note =>
    have hk0 : k0 < s.note_columns.length := by
      by_contra hk
      rw [List.getD_eq_default] at hcol
      · simp at hcol
      · omega
    have hgk0 : s.note_columns.get? k0 = some (s.note_columns.getD k0 []) :=
      get?_getD_of_lt s.note_columns k0 [] hk0
    have hnote : note.judgement = none :=
      hU.2 k0 (s.note_columns.getD k0 []) hgk0 (s.note_cursors.getD k0 0) note hcol le_rfl
    have hcur : s.note_cursors.getD k0 0 < (s.note_columns.getD k0 []).length := by
      by_contra hc
      rw [List.get?_eq_none.mpr (by omega)] at hcol
      simp at hcol
    have hk0c : k0 < s.note_cursors.length := by
      rw [hU.1]
      exact hk0
    cases hp : (note.press t).2 with
    | none =>
      rw [press_key_eq_unjudged s k0 t note hcol hp]
      refine ⟨⟨?_, ?_⟩, ?_⟩
      · simp [List.length_set, hU.1]
      · dsimp only
        intro k col2 hk i n hi hle
        by_cases hkk : k = k0
        · subst hkk
          rw [List.get?_set_eq_of_lt _ hk0, Option.some.injEq] at hk
          subst hk
          by_cases hicur : i = s.note_cursors.getD k 0
          · subst hicur
            rw [List.get?_set_eq_of_lt _ hcur, Option.some.injEq] at hi
            rw [← hi, press_judgement_eq hnote t, hp]
          · rw [List.get?_set_ne _ _ (fun he => hicur he.symm)] at hi
            exact hU.2 k _ hgk0 i n hi hle
        · rw [List.get?_set_ne _ _ (fun he => hkk he.symm)] at hk
          exact hU.2 k col2 hk i n hi hle
      · intro k i hilt
        simp only [judgementAt]
        by_cases hkk : k = k0
        · subst hkk
          rw [List.get?_set_eq_of_lt _ hk0, hgk0]
          dsimp only
          rw [List.get?_set_ne _ _ (Nat.ne_of_gt hilt)]
        · rw [List.get?_set_ne _ _ (fun he => hkk he.symm)]
    | some j =>
      rw [press_key_eq_judged s k0 t note j hcol hp]
      refine ⟨⟨?_, ?_⟩, ?_⟩
      · simp [List.length_set, hU.1]
      · dsimp only
        intro k col2 hk i n hi hle
        by_cases hkk : k = k0
        · subst hkk
          rw [List.get?_set_eq_of_lt _ hk0, Option.some.injEq] at hk
          subst hk
          rw [getD_set_eq _ _ _ hk0c] at hle
          have hicur : s.note_cursors.getD k 0 ≠ i := by omega
          rw [List.get?_set_ne _ _ hicur] at hi
          exact hU.2 k _ hgk0 i n hi (by omega)
        · rw [List.get?_set_ne _ _ (fun he => hkk he.symm)] at hk
          rw [getD_set_ne _ _ _ _ (fun he => hkk he.symm)] at hle
          exact hU.2 k col2 hk i n hi hle
      · intro k i hilt
        simp only [judgementAt]
        by_cases hkk : k = k0
        · subst hkk
          rw [List.get?_set_eq_of_lt _ hk0, hgk0]
          dsimp only
          rw [List.get?_set_ne _ _ (Nat.ne_of_gt hilt)]
        · rw [List.get?_set_ne _ _ (fun he => hkk he.symm)]

theorem poll_fst_fields (s : GameField) (t : ℚ) (held : List Bool) :
    ((s.poll t held).1).note_columns =
      (GameField.pollLanes t held 0 s.note_columns s.note_cursors
        s.judgement_counts s.last_judgement true).1 ∧
    ((s.poll t held).1).note_cursors =
      (GameField.pollLanes t held 0 s.note_columns s.note_cursors
        s.judgement_counts s.last_judgement true).2.1 := by
  simp only [GameField.poll]
  cases GameField.metricsLanes t
      (GameField.pollLanes t held 0 s.note_columns s.note_cursors
        s.judgement_counts s.last_judgement true).1
      (GameField.pollLanes t held 0 s.note_columns s.note_cursors
        s.judgement_counts s.last_judgement true).2.1 0 0 with
  | error e => exact ⟨rfl, rfl⟩
  | ok m =>
    by_cases h0 : 0 < m.2
    · simp [h0]
    · simp [h0]

/-- `poll` preserves the invariant and leaves every note strictly below its
lane's cursor untouched. -/
theorem poll_spec (s : GameField) (t : ℚ) (held : List Bool) (hU : Unjudged s) :
    Unjudged (s.poll t held).1 ∧
    ∀ k i, i < s.note_cursors.getD k 0 →
      judgementAt (s.poll t held).1 k i = judgementAt s k i := by
  obtain ⟨hl, hcl, hj, hpres⟩ := pollLanes_spec t held s.note_columns 0 s.note_cursors
    s.judgement_counts s.last_judgement true hU.1 hU.2
  obtain ⟨hfc, hfk⟩ := poll_fst_fields s t held
  constructor
  · constructor
    · rw [hfc, hfk, hl, hcl]
    · intro k col hk i n hi hle
      rw [hfc] at hk
      rw [hfk] at hle
      exact hj k col hk i n hi hle
  · intro k i hilt
    simp only [judgementAt]
    rw [hfc]
    cases hk : s.note_columns.get? k with
    | none =>
      have hkn : (GameField.pollLanes t held 0 s.note_columns s.note_cursors
          s.judgement_counts s.last_judgement true).1.get? k = none := by
        rw [List.get?_eq_none] at hk ⊢
        rw [hl]
        exact hk
      rw [hkn]
    | some col =>
      cases hk2 : (GameField.pollLanes t held 0 s.note_columns s.note_cursors
          s.judgement_counts s.last_judgement true).1.get? k with
      | none =>
        exfalso
        rw [List.get?_eq_none, hl] at hk2
        rw [List.get?_eq_none.mpr hk2] at hk
        simp at hk
      | some col2 =>
        dsimp only
        rw [hpres k col col2 hk hk2 i hilt]

/-- Any single event preserves the invariant and all recorded judgements. -/
theorem stepEvent_spec (s : GameField) (e : Event) (hU : Unjudged s) :
    Unjudged (stepEvent s e) ∧
    ∀ k i j, judgementAt s k i = some j → judgementAt (stepEvent s e) k i = some j := by
  cases e with
  | press k0 t =>
    obtain ⟨h1, h2⟩ := press_key_spec s k0 t hU
    refine ⟨h1, ?_⟩
    intro k i j hj
    simp only [stepEvent]
    rw [h2 k i (judged_lt_cursor s hU k i j hj)]
    exact hj
  | release k0 t =>
    simp only [stepEvent, release_key_id]
    exact ⟨hU, fun _ _ _ hj => hj⟩
  | poll t held =>
    obtain ⟨h1, h2⟩ := poll_spec s t held hU
    refine ⟨h1, ?_⟩
    intro k i j hj
    simp only [stepEvent]
    rw [h2 k i (judged_lt_cursor s hU k i j hj)]
    exact hj

/-- Judgements already recorded survive any further sequence of events, and
the invariant is maintained throughout. -/
theorem runEvents_spec (s : GameField) (evs : List Event) (hU : Unjudged s) :
    Unjudged (runEvents s evs) ∧
    ∀ k i j, judgementAt s k i = some j → judgementAt (runEvents s evs) k i = some j := by
  induction evs generalizing s with
  | nil => exact ⟨hU, fun _ _ _ hj => hj⟩
  | cons e evs ih =>
    obtain ⟨h1, h2⟩ := stepEvent_spec s e hU
    obtain ⟨ih1, ih2⟩ := ih (stepEvent s e) h1
    simp only [runEvents]
    refine ⟨ih1, ?_⟩
    intro k i j hj
    exact ih2 k i j (h2 k i j hj)
/-! ## Concrete instances used by the claim theorems -/

def L1 : List Seg :=
  [⟨F.fin 0, F.fin 0, F.fin 3⟩, ⟨F.fin 2, F.fin 6, F.fin 4⟩,
   ⟨F.fin 4, F.fin 14, F.inf⟩, ⟨F.fin 4, F.fin 24, F.fin 2⟩]

def L2 : List Seg := [⟨F.fin 0, F.fin 0, F.fin 3⟩, ⟨F.fin 2, F.fin 6, F.fin (-2)⟩]

def tap0 : Note :=
  { key := 0, timing := 0, beat := 0, measure_pos := 0, measure_fraction := 4, kind := .tap }

def field0 : GameField :=
  { note_columns := [[tap0]], note_cursors := [0], judgement_counts := fun _ => 0,
    last_judgement := none, nps_avg := 0, accuracy_avg := 0, last_song_time := 0 }

def holdN : Note :=
  { key := 0, timing := 0, beat := 0, measure_pos := 0, measure_fraction := 4,
    kind := .hold 1 4 1 0 }

def fieldH : GameField :=
  { note_columns := [[holdN]], note_cursors := [0], judgement_counts := fun _ => 0,
    last_judgement := none, nps_avg := 0, accuracy_avg := 0, last_song_time := 0 }

def tapJ : Note :=
  { key := 0, timing := 0, beat := 0, measure_pos := 0, measure_fraction := 4,
    kind := .tap, judgement := some .MARVELOUS, accuracy := some 0 }

def tapU : Note :=
  { key := 0, timing := 5, beat := 8, measure_pos := 2, measure_fraction := 4, kind := .tap }

def fieldW : GameField :=
  { note_columns := [[tapJ, tapU]], note_cursors := [1], judgement_counts := bumpCount (fun _ => 0) .MARVELOUS,
    last_judgement := some .MARVELOUS, nps_avg := 0, accuracy_avg := 0, last_song_time := 0 }

theorem fieldW_unjudged : Unjudged fieldW := by
  constructor
  · rfl
  · intro k col hk i n hi hle
    simp only [fieldW] at hk hle
    match k with
    | 0 =>
      simp only [List.get?_cons_zero, Option.some.injEq] at hk
      subst hk
      simp only [List.getD, List.get?_cons_zero, Option.getD_some] at hle
      match i with
      | 0 => omega
      | 1 =>
        simp only [List.get?_cons_succ, List.get?_cons_zero, Option.some.injEq] at hi
        rw [← hi]
        rfl
      | (m + 2) => simp at hi
    | (m + 1) => simp at hk

/-- Counterexample for C1 as literally stated: a tap note judged Marvelous
by an exact press is re-judged Miss by a later poll (`TapNote.poll` lines
134-141 assign Miss without checking the stored judgement). -/
theorem C1_counterexample :
    (tap0.press 0).1.judgement = some Judgement.MARVELOUS ∧
    ((tap0.press 0).1.poll 1 false).1.judgement = some Judgement.MISS := by
  constructor
  · norm_num [Note.press, tap0]
  · norm_num [Note.press, Note.poll, tap0]

/-- Claim C2: refuted — `poll` can never report chart completion.  On a
field whose single lane holds one tap at time 0, polling at time 1 judges
the Miss and moves the cursor to the end of the lane (cursor 1 = lane
length), which is exactly the claimed completion state; but the metrics pass
then evaluates `column[note_i]` at `note_i = min(cursor, len) = len`
(game_field.py lines 104-107) and raises IndexError instead of returning
true. -/
theorem C2_poll_raises :
    (field0.poll 1 [false]).1.note_cursors = [1] ∧
    (field0.poll 1 [false]).1.note_columns.map List.length = [1] ∧
    (field0.poll 1 [false]).2 = Except.error "IndexError: list index out of range" := by
  refine ⟨?_, ?_, ?_⟩ <;>
    norm_num [GameField.poll, GameField.pollLanes, GameField.pollColumn, GameField.pollRun,
      GameField.metricsLanes, GameField.metricsLane, GameField.metricsRun, Note.poll,
      field0, tap0, bumpCount]

/-- Claim C3: refuted — for the map of tempo `[(0,180),(6,-120)]` the last
stored segment is `(2, 6, -2)` with bps −2 ≤ 0, and beat 10 exceeds its
start beat 6, yet `time_at_beat` returns the finite time 0 for all four
flag combinations, not the unresolved sentinel: the guard on line 289 of
bps_lines.py opens with `line_cursor >= len(self.__bps_lines)`, which is
never true, so the unreachable-beat branch is dead code (and references the
undefined name `line_bps` besides). -/
theorem C3_unreachable_not_sentinel :
    init_beat_bpms [(0,180),(6,-120)] = .ok L2 ∧
    F.fle (F.fin (-2)) (F.fin 0) = true ∧ F.flt (F.fin 6) (F.fin 10) = true ∧
    time_at_beat L2 (F.fin 10) 0 false false = .ok (F.fin 0, 1) ∧
    time_at_beat L2 (F.fin 10) 0 true false = .ok (F.fin 0, 1) ∧
    time_at_beat L2 (F.fin 10) 0 false true = .ok (F.fin 0, 1) ∧
    time_at_beat L2 (F.fin 10) 0 true true = .ok (F.fin 0, 1) := by
  refine ⟨?_, by norm_num [F.fle], by norm_num [F.flt], ?_, ?_, ?_, ?_⟩
  · norm_num [init_beat_bpms, ascViolated, rawAux, regularise, skipRun, L2,
      F.fadd, F.fmul, F.fsub, F.fneg, F.flt]
  all_goals
    norm_num [time_at_beat, advanceFrom, advLoop, L2, F.fadd, F.fmul, F.fsub, F.fneg,
      F.flt, F.beq, F.isinf, F.fdivE, Bind.bind, Except.bind]

/-- Claim C4: the concrete scenario.  From tempo
`[(0,180),(6,240),(14,-180),(20,120)]` the stored map is `L1`;
`beat_at_time` gives 0 ↦ 0, 2 ↦ 6, 3 ↦ 10, 4 ↦ 14 (undershoot at the
discontinuity), and `time_at_beat 16` gives the infinite sentinel without
`allow_warp` and the earliest solution 4 with it. -/
theorem C4_scenario :
    init_beat_bpms [(0,180),(6,240),(14,-180),(20,120)] = .ok L1 ∧
    beat_at_time L1 (F.fin 0) 0 false false = .ok (F.fin 0, 0) ∧
    beat_at_time L1 (F.fin 2) 0 false false = .ok (F.fin 6, 0) ∧
    beat_at_time L1 (F.fin 3) 0 false false = .ok (F.fin 10, 1) ∧
    beat_at_time L1 (F.fin 4) 0 false false = .ok (F.fin 14, 1) ∧
    time_at_beat L1 (F.fin 16) 0 false false = .ok (F.inf, 2) ∧
    time_at_beat L1 (F.fin 16) 0 false true = .ok (F.fin 4, 2) := by
  refine ⟨?_, ?_, ?_, ?_, ?_, ?_, ?_⟩
  · norm_num [init_beat_bpms, ascViolated, rawAux, regularise, skipRun, L1,
      F.fadd, F.fmul, F.fsub, F.fneg, F.flt]
  · norm_num [beat_at_time, advanceFrom, advLoop, L1, F.fadd, F.fmul, F.fsub, F.fneg,
      F.flt, F.beq, F.isinf]
  · norm_num [beat_at_time, advanceFrom, advLoop, L1, F.fadd, F.fmul, F.fsub, F.fneg,
      F.flt, F.beq, F.isinf]
  · norm_num [beat_at_time, advanceFrom, advLoop, L1, F.fadd, F.fmul, F.fsub, F.fneg,
      F.flt, F.beq, F.isinf]
  · norm_num [beat_at_time, advanceFrom, advLoop, L1, F.fadd, F.fmul, F.fsub, F.fneg,
      F.flt, F.beq, F.isinf]
  · norm_num [time_at_beat, advanceFrom, advLoop, L1, F.fadd, F.fmul, F.fsub, F.fneg,
      F.flt, F.beq, F.isinf, F.fdivE, Bind.bind, Except.bind]
  · norm_num [time_at_beat, advanceFrom, advLoop, L1, F.fadd, F.fmul, F.fsub, F.fneg,
      F.flt, F.beq, F.isinf, F.fdivE, Bind.bind, Except.bind]

/-- Counterexample for C5 as literally stated: on the map `L2` of tempo
`[(0,180),(6,-120)]`, time 3 resolves in the negative-bps segment (bps −2 is
neither zero nor infinite), `beat_at_time 3 = 4`, but `time_at_beat 4`
resolves in the first segment and returns 4/3 ≠ 3. -/
theorem C5_counterexample :
    init_beat_bpms [(0,180),(6,-120)] = .ok L2 ∧
    beat_at_time L2 (F.fin 3) 0 false false = .ok (F.fin 4, 1) ∧
    L2.get? 1 = some ⟨F.fin 2, F.fin 6, F.fin (-2)⟩ ∧
    F.beq (F.fin (-2)) (F.fin 0) = false ∧ F.isinf (F.fin (-2)) = false ∧
    time_at_beat L2 (F.fin 4) 0 false false = .ok (F.fin (4/3), 0) ∧
    F.fin (4/3) ≠ F.fin 3 := by
  refine ⟨?_, ?_, rfl, by norm_num [F.beq], rfl, ?_, by norm_num⟩
  · norm_num [init_beat_bpms, ascViolated, rawAux, regularise, skipRun, L2,
      F.fadd, F.fmul, F.fsub, F.fneg, F.flt]
  · norm_num [beat_at_time, advanceFrom, advLoop, L2, F.fadd, F.fmul, F.fsub, F.fneg,
      F.flt, F.beq, F.isinf]
  · norm_num [time_at_beat, advanceFrom, advLoop, L2, F.fadd, F.fmul, F.fsub, F.fneg,
      F.flt, F.beq, F.isinf, F.fdivE, Bind.bind, Except.bind]

/-- Claim C7: the tap press windows.  For an unjudged tap and deviation
`d = |song_time − timing|`: d ≤ 0.0225 ⇒ Marvelous, ≤ 0.045 ⇒ Perfect,
≤ 0.09 ⇒ Great, ≤ 0.135 ⇒ Good, ≤ 0.18 ⇒ Boo (each judgement both stored
and returned); beyond 0.18 and late ⇒ Miss; beyond 0.18 and early ⇒ no
judgement assigned, accuracy cleared, note still open. -/
theorem C7_tap_windows (n : Note) (t : ℚ) (hk : n.kind = NoteKind.tap)
    (hj : n.judgement = none) :
    (|t - n.timing| ≤ 0.0225 →
      (n.press t).1.judgement = some Judgement.MARVELOUS ∧
      (n.press t).2 = some Judgement.MARVELOUS) ∧
    (0.0225 < |t - n.timing| → |t - n.timing| ≤ 0.045 →
      (n.press t).1.judgement = some Judgement.PERFECT ∧
      (n.press t).2 = some Judgement.PERFECT) ∧
    (0.045 < |t - n.timing| → |t - n.timing| ≤ 0.09 →
      (n.press t).1.judgement = some Judgement.GREAT ∧
      (n.press t).2 = some Judgement.GREAT) ∧
    (0.09 < |t - n.timing| → |t - n.timing| ≤ 0.135 →
      (n.press t).1.judgement = some Judgement.GOOD ∧
      (n.press t).2 = some Judgement.GOOD) ∧
    (0.135 < |t - n.timing| → |t - n.timing| ≤ 0.18 →
      (n.press t).1.judgement = some Judgement.BOO ∧
      (n.press t).2 = some Judgement.BOO) ∧
    (0.18 < |t - n.timing| → n.timing < t →
      (n.press t).1.judgement = some Judgement.MISS ∧
      (n.press t).2 = some Judgement.MISS) ∧
    (0.18 < |t - n.timing| → t < n.timing →
      (n.press t).2 = none ∧ (n.press t).1.judgement = none ∧
      (n.press t).1.accuracy = none) := by
  refine ⟨fun h1 => ?_, fun h1 h2 => ?_, fun h1 h2 => ?_, fun h1 h2 => ?_,
    fun h1 h2 => ?_, fun h1 h2 => ?_, fun h1 h2 => ?_⟩ <;>
    simp only [Note.press, hk] <;>
    split_ifs with ha hb hc hd he hf <;>
    first
      | (simp [hj]; done)
      | (exfalso; linarith)

/-! ## The ten claims -/

/-- Claim C1 (amended): the literal note-level statement is false — an
in-window `press` judgement can later be overwritten by `poll`'s
unconditional Miss (see `C1_counterexample`).  What does hold, and what the
game relies on, is the dispatcher-level property: in any `GameField`
satisfying the construction-time invariant `Unjudged` (every note at or past
its lane cursor still unjudged), a note whose judgement has been recorded
never receives another event, so its judgement survives every further
sequence of press/release/poll events unchanged. -/
theorem C1_judgement_write_once (s : GameField) (evs : List Event) (k i : Nat)
    (j : Judgement) (hU : Unjudged s) (hj : judgementAt s k i = some j) :
    judgementAt (runEvents s evs) k i = some j :=
  (runEvents_spec s evs hU).2 k i j hj

/-- Witness for C1: in a one-lane field whose head (cursor 1) already judged
note carries Marvelous, the judgement survives a press and a poll. -/
theorem C1_witness :
    judgementAt (runEvents fieldW [Event.press 0 5, Event.poll 10 [false]]) 0 0
      = some Judgement.MARVELOUS :=
  C1_judgement_write_once fieldW [Event.press 0 5, Event.poll 10 [false]] 0 0
    Judgement.MARVELOUS fieldW_unjudged rfl

/-- Claim C5 (amended): the round-trip identity
`time_at_beat (beat_at_time t) = t` fails for maps containing a
negative-bps segment (see `C5_counterexample`); it does hold exactly, with
matching cursors, for every map built by `init_beat_bpms` from an
all-positive tempo list, at every time `t`. -/
theorem C5_roundtrip (bpms : List (ℚ × ℚ)) (L : List Seg) (t : ℚ)
    (hpos : ∀ p ∈ bpms, 0 < p.2) (hok : init_beat_bpms bpms = .ok L) :
    ∃ b c, beat_at_time L (F.fin t) 0 false false = .ok (F.fin b, c) ∧
      time_at_beat L (F.fin b) 0 false false = .ok (F.fin t, c) :=
  roundtrip_of_good (init_pos_good hpos hok) t

/-- Witness for C5: the single-segment map of tempo `[(0,180)]` at `t = 1`. -/
theorem C5_witness :
    ∃ b c, beat_at_time [⟨F.fin 0, F.fin 0, F.fin 3⟩] (F.fin 1) 0 false false
        = .ok (F.fin b, c) ∧
      time_at_beat [⟨F.fin 0, F.fin 0, F.fin 3⟩] (F.fin b) 0 false false
        = .ok (F.fin 1, c) :=
  C5_roundtrip [(0,180)] [⟨F.fin 0, F.fin 0, F.fin 3⟩] 1
    (by norm_num)
    (by norm_num [init_beat_bpms, ascViolated, rawAux, regularise, skipRun,
      F.fadd, F.fmul, F.fsub, F.fneg, F.flt])

/-- Claim C6: after every successful `init_beat_bpms` and every successful
`add_beat_stops` on a valid stored map (negative BPMs and negative-duration
stops included — nothing here restricts their sign), the stored segment
sequence has non-decreasing `start_time` values (and stays valid, which is
what lets further calls keep the invariant). -/
theorem C6_times_monotone (bpms stops : List (ℚ × ℚ)) (La Lb : List Seg) :
    (init_beat_bpms bpms = .ok La → TimesSorted La ∧ ValidLines La) ∧
    (ValidLines La → add_beat_stops La stops = .ok Lb → TimesSorted Lb ∧ ValidLines Lb) :=
  ⟨fun hok => init_sorted_valid hok, fun hv hok => add_sorted_valid hv hok⟩

/-- Witness for C6: tempo `[(0,180)]`, then a 1-second stop at beat 0. -/
theorem C6_witness :
    (TimesSorted [⟨F.fin 0, F.fin 0, F.fin 3⟩] ∧
      ValidLines [⟨F.fin 0, F.fin 0, F.fin 3⟩]) ∧
    (TimesSorted [⟨F.fin 0, F.fin 0, F.fin 3⟩, ⟨F.fin 0, F.fin 0, F.fin 0⟩,
        ⟨F.fin 1, F.fin 0, F.fin 3⟩] ∧
      ValidLines [⟨F.fin 0, F.fin 0, F.fin 3⟩, ⟨F.fin 0, F.fin 0, F.fin 0⟩,
        ⟨F.fin 1, F.fin 0, F.fin 3⟩]) :=
  ⟨(C6_times_monotone [(0,180)] [(0,1)] [⟨F.fin 0, F.fin 0, F.fin 3⟩] []).1
      (by norm_num [init_beat_bpms, ascViolated, rawAux, regularise, skipRun,
        F.fadd, F.fmul, F.fsub, F.fneg, F.flt]),
   (C6_times_monotone [(0,180)] [(0,1)] [⟨F.fin 0, F.fin 0, F.fin 3⟩]
      [⟨F.fin 0, F.fin 0, F.fin 3⟩, ⟨F.fin 0, F.fin 0, F.fin 0⟩,
        ⟨F.fin 1, F.fin 0, F.fin 3⟩]).2
      (by
        intro s hs
        simp only [List.mem_singleton] at hs
        subst hs
        rfl)
      (by norm_num [add_beat_stops, stopsCheck, addLines, splitStops, buildStack,
        sortDesc, insertDesc, regularise, skipRun, F.fadd, F.fmul, F.fsub, F.fneg,
        F.flt, F.fle, F.beq, F.isinf, F.fdivE])⟩

/-- Claim C8: `init_beat_bpms` rejects every malformed tempo list — empty
input, a zero BPM, beats not strictly ascending, or a first beat other
than 0 — with an error (the stored lines are assigned only on the success
path, after all validation, so a raising call publishes nothing).  The empty
list in particular is rejected by `bpm_changes[0][0]` raising IndexError:
the guard `len(bpm_changes) < 0` on line 71 is never true, so the intended
ValueError is unreachable. -/
theorem C8_init_rejects (bpms : List (ℚ × ℚ))
    (hbad : bpms = [] ∨ (∃ p ∈ bpms, p.2 = 0) ∨ ascViolated bpms = true ∨
      (∀ first rest, bpms = first :: rest → first.1 ≠ 0)) :
    ∃ e, init_beat_bpms bpms = .error e := by
  cases hres : init_beat_bpms bpms with
  | error e => exact ⟨e, rfl⟩
  | ok L =>
    exfalso
    obtain ⟨first, rest, hcons, hasc, hnz, hfz, -⟩ := init_ok_elim hres
    rcases hbad with h | ⟨p, hp, hpz⟩ | h | h
    · rw [h] at hcons
      cases hcons
    · exact hnz p hp hpz
    · rw [hasc] at h
      cases h
    · exact h first rest hcons hfz

/-- Witness for C8: the empty tempo list is rejected. -/
theorem C8_witness : ∃ e, init_beat_bpms [] = .error e :=
  C8_init_rejects [] (Or.inl rfl)

/-- Claim C9 (amended): for a constructed map and an in-range hint the two
queries never raise: they return `.ok` with an in-range cursor, and when the
resolved segment is a stop without `allow_stop`, or a warp without
`allow_warp`, the returned value is the infinite sentinel.  The claim's
third unresolvable case is false as stated: a trailing negative-bps segment
makes an unreachable beat come back as a finite, bogus time rather than the
sentinel (see `C9_counterexample`). -/
theorem C9_queries_no_throw (lines : List Seg) (x : F) (hint : Nat) (st wp : Bool)
    (hh : hint < lines.length) :
    (∃ v c seg, beat_at_time lines x hint st wp = .ok (v, c) ∧
      lines.get? c = some seg ∧
      (F.beq seg.bps (F.fin 0) = true → st = false → v = F.inf) ∧
      (F.isinf seg.bps = true → wp = false → v = F.inf)) ∧
    (∃ v c seg, time_at_beat lines x hint st wp = .ok (v, c) ∧
      lines.get? c = some seg ∧
      (F.beq seg.bps (F.fin 0) = true → st = false → v = F.inf) ∧
      (F.isinf seg.bps = true → wp = false → v = F.inf)) :=
  ⟨beat_at_time_safe lines x hint st wp hh, time_at_beat_safe lines x hint st wp hh⟩

/-- Witness for C9: the two-segment map `L2` with hint 0. -/
theorem C9_witness :
    (∃ v c seg, beat_at_time L2 (F.fin 10) 0 false false = .ok (v, c) ∧
      L2.get? c = some seg ∧
      (F.beq seg.bps (F.fin 0) = true → false = false → v = F.inf) ∧
      (F.isinf seg.bps = true → false = false → v = F.inf)) ∧
    (∃ v c seg, time_at_beat L2 (F.fin 10) 0 false false = .ok (v, c) ∧
      L2.get? c = some seg ∧
      (F.beq seg.bps (F.fin 0) = true → false = false → v = F.inf) ∧
      (F.isinf seg.bps = true → false = false → v = F.inf)) :=
  C9_queries_no_throw L2 (F.fin 10) 0 false false (by norm_num [L2])

/-- Counterexample for C9's "unreachable beat returns the infinite sentinel":
on `L2` (trailing bps −2 < 0) the unreachable beat 10 comes back as the
finite time 0, not the sentinel. -/
theorem C9_counterexample :
    time_at_beat L2 (F.fin 10) 0 false false = .ok (F.fin 0, 1) ∧
    F.isinf (F.fin 0) = false := by
  refine ⟨?_, rfl⟩
  norm_num [time_at_beat, advanceFrom, advLoop, L2, F.fadd, F.fmul, F.fsub, F.fneg,
    F.flt, F.beq, F.isinf, F.fdivE, Bind.bind, Except.bind]

/-- Claim C10: `press` on a hold or roll never returns a judgement, so
`press_key` on a lane whose cursor note is a hold or roll records nothing:
cursor, judgement counts and last judgement are all unchanged (only the
note's own accuracy/last-held state is updated in place). -/
theorem C10_hold_roll_press (s : GameField) (k0 : Nat) (t : ℚ) (n : Note)
    (hk : (∃ a b c d, n.kind = NoteKind.hold a b c d) ∨
          (∃ a b c d, n.kind = NoteKind.roll a b c d))
    (hcol : (s.note_columns.getD k0 []).get? (s.note_cursors.getD k0 0) = some n) :
    (n.press t).2 = none ∧
    (s.press_key k0 t).note_cursors = s.note_cursors ∧
    (s.press_key k0 t).judgement_counts = s.judgement_counts ∧
    (s.press_key k0 t).last_judgement = s.last_judgement := by
  have hp : (n.press t).2 = none := by
    rcases hk with ⟨a, b, c, d, hk⟩ | ⟨a, b, c, d, hk⟩ <;>
      simp only [Note.press, hk] <;> split_ifs <;> rfl
  rw [press_key_eq_unjudged s k0 t n hcol hp]
  exact ⟨hp, rfl, rfl, rfl⟩

/-- Witness for C10: a one-lane field whose head note is a hold. -/
theorem C10_witness :
    (holdN.press 0).2 = none ∧
    (fieldH.press_key 0 0).note_cursors = fieldH.note_cursors ∧
    (fieldH.press_key 0 0).judgement_counts = fieldH.judgement_counts ∧
    (fieldH.press_key 0 0).last_judgement = fieldH.last_judgement :=
  C10_hold_roll_press fieldH 0 0 holdN (Or.inl ⟨1, 4, 1, 0, rfl⟩) rfl

/-- Witness for C7: a tap at timing 0 pressed at 0.01 scores Marvelous. -/
theorem C7_witness :
    (tap0.press (1/100)).1.judgement = some Judgement.MARVELOUS ∧
    (tap0.press (1/100)).2 = some Judgement.MARVELOUS :=
  (C7_tap_windows tap0 (1/100) rfl rfl).1 (by rw [abs_le]; constructor <;> norm_num [tap0])
